import Mathlib

/-!
Verification of the number-theoretic and codec core of an educational RSA
system written in Go (`main.go`).

Modelling conventions:
* Go `int64` values are modelled as `Int`.  Where a claim's domain reaches
  64-bit overflow (the modular-exponentiation claim quantifies over all
  moduli up to `2^63`), the wrap-around of Go's multiplication is modelled
  explicitly (`wrap64`, `modpow64`); every other value reached in the
  claims stays far below `2^63`, where the wrapping and non-wrapping
  models provably coincide.
* Go `%` and `/` on integers truncate toward zero; they are embedded as
  `Int.tmod` and `Int.tmod`'s companion `Int.tdiv`.
* Go strings are modelled as `List Char`.
* The randomized generators (`generateRandomPrime`, `generateE`,
  `genereateRSAKeys`) are modelled as predicates describing exactly the
  values they can return.
* A Go `panic` is modelled by `Option.none`; functions that cannot panic
  keep their plain types.
-/

/-- Go `mod(a, b)`: the remainder of `a/b` in the Euclidean convention,
built from Go's truncating `%` exactly as in the source
(`r := a % b; if (r < 0 && b > 0) || (r > 0 && b < 0) { return r + b }`). -/
def mod (a b : Int) : Int :=
  let r := a.tmod b
  if (r < 0 ∧ 0 < b) ∨ (0 < r ∧ b < 0) then r + b else r

lemma natAbs_tmod_lt (a : Int) {b : Int} (hb : b ≠ 0) :
    (a.tmod b).natAbs < b.natAbs := by
  have hb' : 0 < b.natAbs := Int.natAbs_pos.mpr hb
  rcases a with m | m <;> rcases b with n | n <;>
    simp only [Int.tmod, Int.natAbs_neg, Int.natAbs_ofNat, Int.natAbs_negSucc] at hb' ⊢ <;>
    exact Nat.mod_lt _ hb'

lemma natAbs_mod_lt (a : Int) {b : Int} (hb : b ≠ 0) :
    (mod a b).natAbs < b.natAbs := by
  have h := natAbs_tmod_lt a hb
  simp only [mod]
  split <;> omega

/-- For a positive modulus, Go `mod` agrees with mathematical (Euclidean)
remainder `Int.emod`. -/
lemma mod_eq_emod (a : Int) {b : Int} (hb : 0 < b) : mod a b = a % b := by
  have habs := natAbs_tmod_lt a (by omega : b ≠ 0)
  have hub : a.tmod b < b := Int.tmod_lt_of_pos a hb
  have hlb : -b < a.tmod b := by omega
  have h1 : a % b = a.tmod b % b := by
    conv_lhs => rw [← Int.tdiv_add_tmod a b]
    rw [add_comm, Int.add_mul_emod_self_left]
  simp only [mod]
  by_cases hneg : a.tmod b < 0
  · rw [if_pos (Or.inl ⟨hneg, hb⟩), h1]
    have h2 : (a.tmod b + b * 1) % b = a.tmod b % b :=
      Int.add_mul_emod_self_left (a.tmod b) b 1
    rw [mul_one] at h2
    rw [← h2, Int.emod_eq_of_lt (by omega) (by omega)]
  · rw [if_neg (by omega), h1, Int.emod_eq_of_lt (by omega) (by omega)]

/-- Go `modpow(a, b, n) = a^b mod n` by recursive squaring.  The Go base
case is `b == 1`, returning `a` unreduced; for `b ≤ 0` the Go recursion
never terminates (the process dies by stack overflow), modelled here by the
junk value `a`.  For `b ≥ 2`, Go's truncating `b/2` and `b%2` equal
`Int.tdiv`/`Int.tmod`. -/
def modpow (a b n : Int) : Int :=
  if 2 ≤ b then
    let x := mod (modpow a (b.tdiv 2) n) n
    if b.tmod 2 = 0 then mod (x * x) n
    else mod (mod (x * x) n * a) n
  else a
termination_by b.toNat
decreasing_by
  have _h2 : b.tdiv 2 = b / 2 := Int.tdiv_eq_ediv (by omega) (by omega)
  omega

/-- Two's-complement wrap-around of Go `int64` arithmetic: the
representative of `z` modulo `2^64` lying in `[-2^63, 2^63)`. -/
def wrap64 (z : Int) : Int := (z + 2 ^ 63) % 2 ^ 64 - 2 ^ 63

/-- Go `modpow` with `int64` semantics made explicit: identical to
`modpow` except that each multiplication wraps modulo `2^64` as Go's
`int64` `x*x` and `mod(x*x, n)*a` do.  (`b/2`, `b%2` and the `mod`
helper cannot overflow on in-range operands, so only the two products
are wrapped.)  As in `modpow`, the non-terminating Go case `b ≤ 0` is
modelled by the junk value `a`. -/
def modpow64 (a b n : Int) : Int :=
  if 2 ≤ b then
    let x := mod (modpow64 a (b.tdiv 2) n) n
    if b.tmod 2 = 0 then mod (wrap64 (x * x)) n
    else mod (wrap64 (mod (wrap64 (x * x)) n * a)) n
  else a
termination_by b.toNat
decreasing_by
  have _h2 : b.tdiv 2 = b / 2 := Int.tdiv_eq_ediv (by omega) (by omega)
  omega

/-- Go `mdc(a, b)`: Euclid's gcd using the Euclidean remainder `mod`. -/
def mdc (a b : Int) : Int :=
  if b = 0 then a else mdc b (mod a b)
termination_by b.natAbs
decreasing_by exact natAbs_mod_lt a (by assumption)

/-- The `for` loop of Go `mdcExtended` with state
`(oldR, r, oldS, s, oldT, t)`; the quotient is Go's truncating division
`Int.tdiv`, and `oldR - quotient*r` etc. are written as in the source. -/
def mdcExtendedLoop (oldR r oldS s oldT t : Int) : Int × Int :=
  if r = 0 then (oldS, oldT)
  else
    mdcExtendedLoop r (oldR - oldR.tdiv r * r) s (oldS - oldR.tdiv r * s) t
      (oldT - oldR.tdiv r * t)
termination_by r.natAbs
decreasing_by
  rename_i hr
  have h1 : oldR - oldR.tdiv r * r = oldR.tmod r := by
    have h := Int.tdiv_add_tmod oldR r
    have h2' : r * oldR.tdiv r = oldR.tdiv r * r := mul_comm _ _
    linarith [h, h2']
  rw [h1]
  exact natAbs_tmod_lt oldR hr

/-- Go `mdcExtended(a, b)`: returns the Bezout coefficients `(c1, c2)`
computed by the iterative extended Euclidean algorithm. -/
def mdcExtended (a b : Int) : Int × Int :=
  mdcExtendedLoop a b 1 0 0 1

/-- The witness loop of Go `isPrime`: `a` runs from its current value up to
999999; a witness `a` coprime to `n` with `a^(n-1) mod n ≠ 1` refutes
primality. -/
def isPrimeLoop (n a : Int) : Bool :=
  if a < 1000000 then
    if mdc a n = 1 ∧ modpow a (n - 1) n ≠ 1 then false
    else isPrimeLoop n (a + 1)
  else true
termination_by (1000000 - a).toNat
decreasing_by omega

/-- Go `isPrime(n)`: Fermat primality test with witnesses 1..999999. -/
def isPrime (n : Int) : Bool :=
  isPrimeLoop n 1

/-! ### Semantics of `modpow`, `mdc` and `isPrime` -/

lemma modpow_one (a n : Int) : modpow a 1 n = a := by
  rw [modpow]
  norm_num

lemma modpow_eq_pow : ∀ (k : Nat) (b : Int), b.toNat = k → 2 ≤ b →
    ∀ (a n : Int), 0 ≤ a → 0 < n → modpow a b n = a ^ b.toNat % n := by
  intro k
  induction k using Nat.strong_induction_on with
  | _ k ih =>
    intro b hk hb a n ha hn
    have hdiv : b.tdiv 2 = b / 2 := Int.tdiv_eq_ediv (by omega) (by omega)
    have hmod2 : b.tmod 2 = b % 2 := Int.tmod_eq_emod (by omega) (by omega)
    have hb2 : 1 ≤ b / 2 := by omega
    have hx : mod (modpow a (b.tdiv 2) n) n = a ^ (b / 2).toNat % n := by
      rw [hdiv]
      by_cases h1 : b / 2 = 1
      · rw [h1, modpow_one, mod_eq_emod _ hn]
        norm_num
      · have h2 : 2 ≤ b / 2 := by omega
        rw [ih (b / 2).toNat (by omega) (b / 2) rfl h2 a n ha hn,
          mod_eq_emod _ hn, Int.emod_emod_of_dvd _ dvd_rfl]
    have hsq : mod ((a ^ (b / 2).toNat % n) * (a ^ (b / 2).toNat % n)) n =
        a ^ ((b / 2).toNat + (b / 2).toNat) % n := by
      rw [mod_eq_emod _ hn, ← Int.mul_emod, ← pow_add]
    rw [modpow, if_pos hb, hx]
    dsimp only
    by_cases hpar : b.tmod 2 = 0
    · rw [if_pos hpar, hsq]
      have hexp : (b / 2).toNat + (b / 2).toNat = b.toNat := by
        rw [hmod2] at hpar; omega
      rw [hexp]
    · rw [if_neg hpar, hsq, mod_eq_emod _ hn, Int.mul_emod,
        Int.emod_emod_of_dvd _ dvd_rfl, ← Int.mul_emod, ← pow_succ]
      have hexp : (b / 2).toNat + (b / 2).toNat + 1 = b.toNat := by
        rw [hmod2] at hpar; omega
      rw [hexp]

/-- `modpow` computes `a ^ b mod n` whenever `0 ≤ a < n` and `b ≥ 1`
(for `b = 1` the unreduced result `a` is already reduced). -/
lemma modpow_spec {a b n : Int} (ha : 0 ≤ a) (han : a < n) (hb : 1 ≤ b) :
    modpow a b n = a ^ b.toNat % n := by
  have hn : 0 < n := lt_of_le_of_lt ha han
  rcases eq_or_lt_of_le hb with h1 | h2
  · rw [← h1, modpow_one]
    have : ((1 : Int)).toNat = 1 := rfl
    rw [this, pow_one, Int.emod_eq_of_lt ha han]
  · exact modpow_eq_pow b.toNat b rfl (by omega) a n ha hn

lemma mdc_eq_gcd : ∀ (k : Nat) (b : Int), b.natAbs = k → ∀ a : Int, 0 ≤ a → 0 ≤ b →
    mdc a b = Int.gcd a b := by
  intro k
  induction k using Nat.strong_induction_on with
  | _ k ih =>
    intro b hk a ha hb
    by_cases hb0 : b = 0
    · subst hb0
      rw [mdc]
      simp only [if_pos rfl, Int.gcd_zero_right]
      exact (Int.natAbs_of_nonneg ha).symm
    · rw [mdc, if_neg hb0]
      have hbpos : 0 < b := lt_of_le_of_ne hb (Ne.symm hb0)
      have hmlt := natAbs_mod_lt a hb0
      have hmnn : 0 ≤ mod a b := by
        rw [mod_eq_emod a hbpos]; exact Int.emod_nonneg a hb0
      rw [ih (mod a b).natAbs (by omega) (mod a b) rfl b hb hmnn,
        mod_eq_emod a hbpos]
      obtain ⟨m, rfl⟩ := Int.eq_ofNat_of_zero_le ha
      obtain ⟨n, rfl⟩ := Int.eq_ofNat_of_zero_le hb
      have hcast : (m : Int) % (n : Int) = ((m % n : Nat) : Int) :=
        (Int.ofNat_emod m n).symm
      rw [hcast]
      have : Int.gcd (n : Int) ((m % n : Nat) : Int) = Int.gcd (m : Int) (n : Int) := by
        simp only [Int.gcd, Int.natAbs_ofNat]
        rw [Nat.gcd_comm n (m % n), ← Nat.gcd_rec, Nat.gcd_comm]
      rw [this]

lemma isPrimeLoop_iff : ∀ (k : Nat) (a : Int), (1000000 - a).toNat = k → ∀ n : Int,
    (isPrimeLoop n a = true ↔
      ∀ x : Int, a ≤ x → x < 1000000 → mdc x n = 1 → modpow x (n - 1) n = 1) := by
  intro k
  induction k using Nat.strong_induction_on with
  | _ k ih =>
    intro a hk n
    rw [isPrimeLoop]
    by_cases ha : a < 1000000
    · rw [if_pos ha]
      by_cases hw : mdc a n = 1 ∧ modpow a (n - 1) n ≠ 1
      · rw [if_pos hw]
        refine iff_of_false (by simp) ?_
        intro hall
        exact hw.2 (hall a le_rfl ha hw.1)
      · rw [if_neg hw,
          ih (1000000 - (a + 1)).toNat (by omega) (a + 1) rfl n]
        constructor
        · intro h x hax hx hg
          rcases eq_or_lt_of_le hax with rfl | hlt
          · by_cases hm : modpow a (n - 1) n = 1
            · exact hm
            · exact absurd ⟨hg, hm⟩ hw
          · exact h x (by omega) hx hg
        · intro h x hax hx hg
          exact h x (by omega) hx hg
    · rw [if_neg ha]
      refine iff_of_true rfl ?_
      intro x hax hx _
      exact absurd hx (by omega)

lemma isPrime_iff (n : Int) :
    isPrime n = true ↔
      ∀ x : Int, 1 ≤ x → x < 1000000 → mdc x n = 1 → modpow x (n - 1) n = 1 :=
  isPrimeLoop_iff 999999 1 rfl n

/-! ### The extended Euclidean algorithm: Bezout identity and coefficient
bounds for the loop of `mdcExtended` -/

/-- Recursive reformulation of the extended-Euclid loop for nonnegative
inputs, used to reason about `mdcExtended`. -/
def egcdRec (a b : Nat) : Int × Int :=
  if b = 0 then (1, 0)
  else
    let p := egcdRec b (a % b)
    (p.2, p.1 - ((a / b : Nat) : Int) * p.2)
termination_by b
decreasing_by exact Nat.mod_lt _ (by omega)

/-- The Go loop is linear in its coefficient seeds, with coefficients given
by `egcdRec`. -/
lemma mdcExtendedLoop_eq_egcdRec : ∀ (k b : Nat), b = k → ∀ (a : Nat) (s0 s1 t0 t1 : Int),
    mdcExtendedLoop (a : Int) (b : Int) s0 s1 t0 t1 =
      (s0 * (egcdRec a b).1 + s1 * (egcdRec a b).2,
       t0 * (egcdRec a b).1 + t1 * (egcdRec a b).2) := by
  intro k
  induction k using Nat.strong_induction_on with
  | _ k ih =>
    intro b hk a s0 s1 t0 t1
    by_cases hb : b = 0
    · subst hb
      rw [mdcExtendedLoop, egcdRec]
      norm_num
    · have hbz : ((b : Nat) : Int) ≠ 0 := by exact_mod_cast hb
      rw [mdcExtendedLoop, if_neg hbz, egcdRec, if_neg hb]
      have hdivnn : 0 ≤ (a : Int).tdiv (b : Int) :=
        Int.tdiv_nonneg (Int.ofNat_nonneg a) (Int.ofNat_nonneg b)
      have hdiv : (a : Int).tdiv (b : Int) = ((a / b : Nat) : Int) := by
        rw [Int.tdiv_eq_ediv (Int.ofNat_nonneg a) (Int.ofNat_nonneg b)]
        exact_mod_cast (Int.ofNat_ediv a b).symm
      have hmod : (a : Int) - (a : Int).tdiv (b : Int) * (b : Int) =
          ((a % b : Nat) : Int) := by
        rw [hdiv]
        have h := Nat.div_add_mod a b
        push_cast
        have hc : ((b : Int)) * ((a / b : Nat) : Int) + ((a % b : Nat) : Int)
            = (a : Int) := by exact_mod_cast h
        push_cast at hc
        linarith [hc, mul_comm ((b : Int)) (((a : Nat) / b : Nat) : Int)]
      have hblt : a % b < k := by
        have := Nat.mod_lt a (Nat.pos_of_ne_zero hb)
        omega
      rw [hmod, hdiv, ih (a % b) hblt (a % b) rfl b s1 _ t1 _]
      dsimp only
      simp only [Prod.mk.injEq]
      constructor <;> ring

lemma mdcExtended_eq_egcdRec (a b : Nat) :
    mdcExtended (a : Int) (b : Int) = egcdRec a b := by
  rw [mdcExtended, mdcExtendedLoop_eq_egcdRec b b rfl a 1 0 0 1]
  simp

lemma gcd_step (a b : Nat) : Nat.gcd b (a % b) = Nat.gcd a b := by
  rw [Nat.gcd_comm b (a % b), ← Nat.gcd_rec, Nat.gcd_comm]

/-- Bezout identity for `egcdRec`. -/
lemma egcdRec_bezout : ∀ (k b : Nat), b = k → ∀ a : Nat,
    (a : Int) * (egcdRec a b).1 + (b : Int) * (egcdRec a b).2 = Nat.gcd a b := by
  intro k
  induction k using Nat.strong_induction_on with
  | _ k ih =>
    intro b hk a
    by_cases hb : b = 0
    · subst hb
      rw [egcdRec]
      simp
    · rw [egcdRec, if_neg hb]
      dsimp only
      have hblt : a % b < k := by
        have := Nat.mod_lt a (Nat.pos_of_ne_zero hb)
        omega
      have hih := ih (a % b) hblt (a % b) rfl b
      have hdm : (b : Int) * ((a / b : Nat) : Int) + ((a % b : Nat) : Int)
          = (a : Int) := by exact_mod_cast Nat.div_add_mod a b
      rw [← gcd_step a b, ← hih]
      linear_combination (-(egcdRec b (a % b)).2) * hdm

/-- Coefficient bounds for `egcdRec`: with `g = gcd a b` and `b ≥ 1`,
`2g·|s| ≤ b` and `2g·|t| ≤ max (2g) a`. -/
lemma egcdRec_bound : ∀ (k b : Nat), b = k → ∀ a : Nat, 1 ≤ b →
    2 * Nat.gcd a b * (egcdRec a b).1.natAbs ≤ b ∧
    2 * Nat.gcd a b * (egcdRec a b).2.natAbs ≤ max (2 * Nat.gcd a b) a := by
  intro k
  induction k using Nat.strong_induction_on with
  | _ k ih =>
    intro b hk a hb1
    have hb : b ≠ 0 := by omega
    rw [egcdRec, if_neg hb]
    dsimp only
    by_cases hr : a % b = 0
    · -- `b` divides `a`: the recursive call is on `(b, 0)` and returns `(1, 0)`,
      -- so the result is `(0, 1)`; here `gcd a b = b`.
      rw [hr, egcdRec]
      simp only [if_pos rfl]
      have hg : Nat.gcd a b = b := by
        rw [← gcd_step a b, hr, Nat.gcd_zero_right]
      rw [hg]
      norm_num
    · have hblt : a % b < k := by
        have := Nat.mod_lt a (Nat.pos_of_ne_zero hb)
        omega
      have hmlt : a % b < b := Nat.mod_lt a (Nat.pos_of_ne_zero hb)
      have hih := ih (a % b) hblt (a % b) rfl b (by omega)
      rw [gcd_step a b] at hih
      set g := Nat.gcd a b with hgdef
      set p := egcdRec b (a % b) with hpdef
      -- `g` divides `b` strictly (since `g ≤ a % b < b`), hence `2g ≤ b`.
      have hgdvd : g ∣ b := Nat.gcd_dvd_right a b
      have hgle : g ≤ a % b := by
        have hdv : g ∣ a % b := by
          rw [hgdef, ← gcd_step a b]
          exact Nat.gcd_dvd_right b (a % b)
        exact Nat.le_of_dvd (by omega) hdv
      have h2g : 2 * g ≤ b := by
        rcases hgdvd with ⟨m, hm⟩
        have hm2 : 2 ≤ m := by
          rcases Nat.lt_or_ge m 2 with h | h
          · interval_cases m <;> omega
          · exact h
        calc 2 * g = g * 2 := by ring
          _ ≤ g * m := Nat.mul_le_mul_left g hm2
          _ = b := hm.symm
      have hmax : max (2 * g) b = b := max_eq_right (by omega)
      rw [hmax] at hih
      refine ⟨hih.2, ?_⟩
      have htri : (p.1 - ((a / b : Nat) : Int) * p.2).natAbs ≤
          p.1.natAbs + (a / b) * p.2.natAbs := by
        calc (p.1 - ((a / b : Nat) : Int) * p.2).natAbs
            ≤ p.1.natAbs + (((a / b : Nat) : Int) * p.2).natAbs :=
              Int.natAbs_sub_le _ _
          _ = p.1.natAbs + (a / b) * p.2.natAbs := by
              rw [Int.natAbs_mul, Int.natAbs_ofNat]
      calc 2 * g * (p.1 - ((a / b : Nat) : Int) * p.2).natAbs
          ≤ 2 * g * (p.1.natAbs + (a / b) * p.2.natAbs) :=
            Nat.mul_le_mul_left _ htri
        _ = 2 * g * p.1.natAbs + (a / b) * (2 * g * p.2.natAbs) := by ring
        _ ≤ (a % b) + (a / b) * b :=
            Nat.add_le_add hih.1 (Nat.mul_le_mul_left _ hih.2)
        _ = a := by
            have h := Nat.div_add_mod a b
            have hc : (a / b) * b = b * (a / b) := Nat.mul_comm _ _
            omega
        _ ≤ max (2 * g) a := le_max_right _ _

/-- The Go pattern `s, _ := mdcExtended(e, phi); if s < 0 { d = s + phi }`
produces a modular inverse of `e` in `[0, phi)` whenever `gcd e phi = 1`. -/
lemma bezout_normalized {e phi s t d : Int} (he : 0 ≤ e) (hphi : 1 ≤ phi)
    (hst : mdcExtended e phi = (s, t)) (hg : Int.gcd e phi = 1)
    (hd : d = if s < 0 then s + phi else s) :
    0 ≤ d ∧ d < phi ∧ (e * d) % phi = 1 % phi := by
  obtain ⟨eN, rfl⟩ := Int.eq_ofNat_of_zero_le he
  obtain ⟨phiN, rfl⟩ := Int.eq_ofNat_of_zero_le (by omega : (0 : Int) ≤ phi)
  have hgN : Nat.gcd eN phiN = 1 := by
    simpa [Int.gcd, Int.natAbs_ofNat] using hg
  have hrec := mdcExtended_eq_egcdRec eN phiN
  rw [hst] at hrec
  have hs1 : s = (egcdRec eN phiN).1 := by rw [← hrec]
  have ht1 : t = (egcdRec eN phiN).2 := by rw [← hrec]
  have hphiN : 1 ≤ phiN := by exact_mod_cast hphi
  have hbez := egcdRec_bezout phiN phiN rfl eN
  rw [hgN, ← hs1, ← ht1] at hbez
  have hbnd := (egcdRec_bound phiN phiN rfl eN hphiN).1
  rw [hgN, ← hs1] at hbnd
  norm_num at hbnd
  -- hbez : ↑eN * s + ↑phiN * t = 1,  hbnd : 2 * s.natAbs ≤ phiN
  subst hd
  by_cases hneg : s < 0
  · rw [if_pos hneg]
    refine ⟨by omega, by omega, ?_⟩
    have hrw : (eN : Int) * (s + (phiN : Int)) = 1 + (phiN : Int) * ((eN : Int) - t) := by
      linear_combination hbez
    rw [hrw, Int.add_mul_emod_self_left]
  · rw [if_neg hneg]
    refine ⟨by omega, by omega, ?_⟩
    have hrw : (eN : Int) * s = 1 + (phiN : Int) * (-t) := by
      linear_combination hbez
    rw [hrw, Int.add_mul_emod_self_left]

/-! ### The randomized generators, modelled as predicates on their
possible return values -/

/-- Possible return values of Go `generateRandomPrime`: a 16-bit draw that
is at most 54772 and passes `isPrime`.  (Draws of 0 or 1 make `isPrime`
call `modpow` with exponent ≤ 0, which never terminates, so they are never
returned.) -/
def generateRandomPrimeOut (p : Int) : Prop :=
  2 ≤ p ∧ p ≤ 54772 ∧ isPrime p = true

/-- Possible return values of Go `generateE(phi)`: a 16-bit draw coprime
to `phi` in the sense of `mdc`. -/
def generateEOut (phi e : Int) : Prop :=
  0 ≤ e ∧ e < 65536 ∧ mdc e phi = 1

/-- The relation tying the primes `p, q` drawn inside Go `genereateRSAKeys`
(name typo preserved from the source) to the returned triple `(n, e, d)`:
`n = p*q`, `phi = (p-1)(q-1)`, `e` from `generateE(phi)`, and
`d = s + phi` if `s < 0` else `s`, where `s = mdcExtended(e, phi).1`. -/
def genereateRSAKeysFrom (p q n e d : Int) : Prop :=
  generateRandomPrimeOut p ∧ generateRandomPrimeOut q ∧ n = p * q ∧
  generateEOut ((p - 1) * (q - 1)) e ∧
  d = (if (mdcExtended e ((p - 1) * (q - 1))).1 < 0
       then (mdcExtended e ((p - 1) * (q - 1))).1 + (p - 1) * (q - 1)
       else (mdcExtended e ((p - 1) * (q - 1))).1)

/-- Possible return triples of Go `genereateRSAKeys`. -/
def genereateRSAKeysOut (n e d : Int) : Prop :=
  ∃ p q, genereateRSAKeysFrom p q n e d

/-! ### Number-theoretic facts about `isPrime` -/

/-- Bridge: `isPrime n` returns true as soon as every coprime residue
satisfies the Fermat identity at the `Nat` level. -/
lemma isPrime_of_fermat {n : Int} (hn : 3 ≤ n)
    (hf : ∀ x : Nat, Nat.Coprime x n.toNat → x ^ (n.toNat - 1) % n.toNat = 1) :
    isPrime n = true := by
  rw [isPrime_iff]
  intro x hx1 hx2 hg
  obtain ⟨xN, rfl⟩ := Int.eq_ofNat_of_zero_le (by omega : (0 : Int) ≤ x)
  obtain ⟨nN, rfl⟩ := Int.eq_ofNat_of_zero_le (by omega : (0 : Int) ≤ n)
  rw [mdc_eq_gcd (nN : Int).natAbs _ rfl _ (by omega) (by omega)] at hg
  have hco : Nat.Coprime xN nN := by
    have : Int.gcd (xN : Int) (nN : Int) = Nat.gcd xN nN := by
      simp [Int.gcd, Int.natAbs_ofNat]
    rw [this] at hg
    exact_mod_cast hg
  have hres := hf xN (by simpa using hco)
  have hb2 : 2 ≤ (nN : Int) - 1 := by omega
  rw [modpow_eq_pow ((nN : Int) - 1).toNat _ rfl hb2 _ _ (by omega) (by omega)]
  have hexp : ((nN : Int) - 1).toNat = nN - 1 := by omega
  rw [hexp]
  have hcast : ((xN : Int)) ^ (nN - 1) % (nN : Int) =
      ((xN ^ (nN - 1) % nN : Nat) : Int) := by
    push_cast
    ring_nf
  rw [hcast]
  have hnn : (nN : Int).toNat = nN := rfl
  rw [hnn] at hres
  exact_mod_cast hres

/-- Fermat's little theorem makes `isPrime` accept every odd prime. -/
lemma isPrime_of_odd_prime {p : Nat} (hp : p.Prime) (hodd : 2 < p) :
    isPrime (p : Int) = true := by
  apply isPrime_of_fermat (by exact_mod_cast hodd)
  intro x hco
  have hnn : ((p : Int)).toNat = p := rfl
  rw [hnn]
  have h := Nat.ModEq.pow_totient (by rwa [hnn] at hco : Nat.Coprime x p)
  rw [Nat.totient_prime hp] at h
  have hmodeq : x ^ (p - 1) % p = 1 % p := h
  have h1p : 1 % p = 1 := Nat.mod_eq_of_lt (by omega)
  rwa [h1p] at hmodeq

/-- 561 = 3·11·17 is a Carmichael number: every residue coprime to 561
satisfies the Fermat identity with exponent 560. -/
lemma carmichael_561 (x : Nat) (hco : Nat.Coprime x 561) : x ^ 560 % 561 = 1 := by
  have h3 : Nat.Coprime x 3 := Nat.Coprime.coprime_dvd_right (by norm_num) hco
  have h11 : Nat.Coprime x 11 := Nat.Coprime.coprime_dvd_right (by norm_num) hco
  have h17 : Nat.Coprime x 17 := Nat.Coprime.coprime_dvd_right (by norm_num) hco
  have e3 : x ^ 560 ≡ 1 [MOD 3] := by
    have h := Nat.ModEq.pow_totient h3
    rw [Nat.totient_prime (by norm_num)] at h
    calc x ^ 560 = (x ^ (3 - 1)) ^ 280 := by ring
      _ ≡ 1 ^ 280 [MOD 3] := Nat.ModEq.pow 280 h
      _ = 1 := one_pow 280
  have e11 : x ^ 560 ≡ 1 [MOD 11] := by
    have h := Nat.ModEq.pow_totient h11
    rw [Nat.totient_prime (by norm_num)] at h
    calc x ^ 560 = (x ^ (11 - 1)) ^ 56 := by ring
      _ ≡ 1 ^ 56 [MOD 11] := Nat.ModEq.pow 56 h
      _ = 1 := one_pow 56
  have e17 : x ^ 560 ≡ 1 [MOD 17] := by
    have h := Nat.ModEq.pow_totient h17
    rw [Nat.totient_prime (by norm_num)] at h
    calc x ^ 560 = (x ^ (17 - 1)) ^ 35 := by ring
      _ ≡ 1 ^ 35 [MOD 17] := Nat.ModEq.pow 35 h
      _ = 1 := one_pow 35
  have e33 : x ^ 560 ≡ 1 [MOD 3 * 11] :=
    (Nat.modEq_and_modEq_iff_modEq_mul (by norm_num)).mp ⟨e3, e11⟩
  have e561 : x ^ 560 ≡ 1 [MOD 3 * 11 * 17] :=
    (Nat.modEq_and_modEq_iff_modEq_mul (by norm_num)).mp ⟨e33, e17⟩
  have hfin : x ^ 560 % (3 * 11 * 17) = 1 % (3 * 11 * 17) := e561
  norm_num at hfin
  exact hfin

/-- `isPrime` accepts the composite Carmichael number 561. -/
lemma isPrime_561 : isPrime 561 = true := by
  apply isPrime_of_fermat (by norm_num)
  intro x hco
  exact carmichael_561 x hco

/-! ### RSA correctness over distinct genuine primes -/

/-- Core RSA round-trip: for distinct primes `p ≠ q` and `e·d ≡ 1`
modulo `(p-1)(q-1)`, exponentiation by `e·d` fixes every residue below
`p·q`. -/
lemma rsa_core {p q e d x : Nat} (hp : p.Prime) (hq : q.Prime) (hpq : p ≠ q)
    (hmod : (e * d) % ((p - 1) * (q - 1)) = 1) (hx : x < p * q) :
    x ^ (e * d) % (p * q) = x := by
  set phi := (p - 1) * (q - 1) with hphi
  set k := e * d / phi with hk
  have hmod' : (e * d) % phi = 1 := by rw [hphi]; exact hmod
  have hed : e * d = phi * k + 1 := by
    have h := Nat.div_add_mod (e * d) phi
    rw [hmod'] at h
    exact h.symm
  have hone : ∀ r : Nat, r.Prime → (r - 1) ∣ phi → x ^ (e * d) ≡ x [MOD r] := by
    intro r hr hdvd
    by_cases hdx : r ∣ x
    · have h1 : r ∣ x ^ (e * d) := dvd_pow hdx (by omega)
      calc x ^ (e * d) ≡ 0 [MOD r] := Nat.modEq_zero_iff_dvd.mpr h1
        _ ≡ x [MOD r] := (Nat.modEq_zero_iff_dvd.mpr hdx).symm
    · have hco : Nat.Coprime x r :=
        ((Nat.Prime.coprime_iff_not_dvd hr).mpr hdx).symm
      have hfer := Nat.ModEq.pow_totient hco
      rw [Nat.totient_prime hr] at hfer
      obtain ⟨m, hm⟩ := hdvd
      calc x ^ (e * d) = (x ^ (r - 1)) ^ (m * k) * x := by
            rw [hed, hm, ← pow_mul]
            ring
        _ ≡ 1 ^ (m * k) * x [MOD r] :=
            Nat.ModEq.mul (Nat.ModEq.pow (m * k) hfer) rfl
        _ = x := by rw [one_pow, one_mul]
  have hcopq : Nat.Coprime p q := (Nat.coprime_primes hp hq).mpr hpq
  have hmodpq : x ^ (e * d) ≡ x [MOD p * q] :=
    (Nat.modEq_and_modEq_iff_modEq_mul hcopq).mp
      ⟨hone p hp (Dvd.intro _ rfl), hone q hq (Dvd.intro_left _ rfl)⟩
  have hfin : x ^ (e * d) % (p * q) = x % (p * q) := hmodpq
  rwa [Nat.mod_eq_of_lt hx] at hfin

lemma mdc_eval {a b : Int} (ha : 0 ≤ a) (hb : 0 ≤ b) : mdc a b = Int.gcd a b :=
  mdc_eq_gcd b.natAbs b rfl a ha hb

/-- `isPrime 2 = false`: the witness 3 is coprime to 2, and
`modpow 3 1 2` returns 3 unreduced, which is ≠ 1. -/
lemma isPrime_two : isPrime 2 = false := by
  rw [isPrime, isPrimeLoop, if_pos (by norm_num)]
  have hw1 : ¬ (mdc 1 2 = 1 ∧ modpow 1 (2 - 1) 2 ≠ 1) := by
    have hm : modpow 1 (2 - 1) 2 = 1 := by norm_num [modpow_one]
    rw [hm]
    simp
  rw [if_neg hw1, isPrimeLoop, if_pos (by norm_num)]
  have hw2 : ¬ (mdc (1 + 1) 2 = 1 ∧ modpow (1 + 1) (2 - 1) 2 ≠ 1) := by
    rw [mdc_eval (by norm_num) (by norm_num)]
    norm_num
  rw [if_neg hw2, isPrimeLoop, if_pos (by norm_num)]
  have hw3 : mdc (1 + 1 + 1) 2 = 1 ∧ modpow (1 + 1 + 1) (2 - 1) 2 ≠ 1 := by
    constructor
    · rw [mdc_eval (by norm_num) (by norm_num)]
      norm_num
    · have hm : modpow (1 + 1 + 1) (2 - 1) 2 = 3 := by norm_num [modpow_one]
      rw [hm]
      norm_num
  rw [if_pos hw3]

lemma neg_one_emod {p : Int} (hp : 2 ≤ p) : (-1) % p = p - 1 := by
  have h := Int.add_mul_emod_self_left (-1) p 1
  have h2 : -1 + p * 1 = p - 1 := by ring
  rw [h2] at h
  rw [← h, Int.emod_eq_of_lt (by omega) (by omega)]

/-- Every value accepted by `isPrime` in the generator's range is odd:
`2` itself is rejected (`isPrime_two`), and for even `p ≥ 4` the witness
`p - 1` fails the Fermat identity since `(p-1)^(p-1) ≡ (-1)^odd = -1`. -/
lemma isPrime_out_odd {p : Int} (h2 : 2 ≤ p) (hle : p ≤ 54772)
    (hp : isPrime p = true) : p % 2 = 1 := by
  by_contra hodd
  have heven : p % 2 = 0 := by omega
  by_cases hp2 : p = 2
  · rw [hp2] at hp
    rw [isPrime_two] at hp
    exact absurd hp (by norm_num)
  · have hp4 : 4 ≤ p := by omega
    have hx := (isPrime_iff p).mp hp (p - 1) (by omega) (by omega) ?_
    · have hk2 : 2 ≤ p - 1 := by omega
      rw [modpow_eq_pow (p - 1).toNat (p - 1) rfl hk2 (p - 1) p (by omega)
        (by omega)] at hx
      have hcong : Int.ModEq p (p - 1) (-1) := by
        show (p - 1) % p = (-1) % p
        rw [neg_one_emod (by omega), Int.emod_eq_of_lt (by omega) (by omega)]
      have hpow := Int.ModEq.pow (p - 1).toNat hcong
      have hoddexp : Odd ((p - 1).toNat) := by
        rw [Nat.odd_iff]
        omega
      rw [Odd.neg_one_pow hoddexp] at hpow
      have hval : (p - 1) ^ (p - 1).toNat % p = (-1) % p := hpow
      rw [neg_one_emod (by omega)] at hval
      rw [hval] at hx
      omega
    · rw [mdc_eval (by omega) (by omega)]
      have hgi : Int.gcd (p - 1) p = Nat.gcd (p - 1).toNat p.toNat := by
        rw [Int.gcd]
        congr 1 <;> omega
      have hsucc : p.toNat = (p - 1).toNat + 1 := by omega
      have hco : Nat.gcd ((p - 1).toNat) ((p - 1).toNat + 1) = 1 := by
        have h : Nat.Coprime ((p - 1).toNat) ((p - 1).toNat + 1) := by simp
        exact h
      rw [hgi, hsucc, hco]
      norm_num

/-! ### Go `findPrivateKey`: brute-force key recovery -/

/-- The divisor scan of Go `findPrivateKey`: `i` runs downward from its
current value to 2; the first divisor found gives `(p, q) = (i, n/i)`.
If no divisor is found, `p` and `q` keep their zero values. -/
def findDivLoop (n i : Int) : Int × Int :=
  if 2 ≤ i then
    if n.tmod i = 0 then (i, n.tdiv i)
    else findDivLoop n (i - 1)
  else (0, 0)
termination_by i.toNat
decreasing_by omega

/-- Go `findPrivateKey(n, e)`: factor `n` by the downward scan, then derive
the private exponent exactly as `genereateRSAKeys` does. -/
def findPrivateKey (n e : Int) : Int :=
  let pq := findDivLoop n (n - 1)
  let phi := (pq.1 - 1) * (pq.2 - 1)
  let s := (mdcExtended e phi).1
  if s < 0 then s + phi else s

/-- One unfolding step of the `mdcExtended` loop, for concrete evaluation. -/
lemma mdcExtendedLoop_step (q : Int) {oldR r oldS s oldT t : Int} (hr : ¬ r = 0)
    (hq : oldR.tdiv r = q) :
    mdcExtendedLoop oldR r oldS s oldT t =
      mdcExtendedLoop r (oldR - q * r) s (oldS - q * s) t (oldT - q * t) := by
  rw [mdcExtendedLoop, if_neg hr, hq]

lemma findDivLoop_eq : ∀ (k : Nat) (i : Int), i.toNat = k → ∀ n d : Int,
    2 ≤ d → d ∣ n → d ≤ i → (∀ j : Int, d < j → j ≤ i → ¬ (j ∣ n)) →
    findDivLoop n i = (d, n.tdiv d) := by
  intro k
  induction k using Nat.strong_induction_on with
  | _ k ih =>
    intro i hk n d hd2 hdvd hdi hnone
    rw [findDivLoop, if_pos (by omega)]
    by_cases hi : i = d
    · subst hi
      rw [if_pos (Int.tmod_eq_zero_of_dvd hdvd)]
    · have hlt : d < i := lt_of_le_of_ne hdi (fun h => hi h.symm)
      have hndvd : ¬ (i ∣ n) := hnone i hlt le_rfl
      have hne : ¬ n.tmod i = 0 := by
        intro h0
        apply hndvd
        have hdef := Int.tmod_add_tdiv n i
        rw [h0, zero_add] at hdef
        exact ⟨n.tdiv i, hdef.symm⟩
      rw [if_neg hne]
      exact ih (i - 1).toNat (by omega) (i - 1) rfl n d hd2 hdvd (by omega)
        (fun j h1 h2 => hnone j h1 (by omega))

/-- Divisors of a product of two primes. -/
lemma dvd_prime_mul {p q j : Nat} (hp : p.Prime) (hq : q.Prime) (hj : j ∣ p * q) :
    j = 1 ∨ j = p ∨ j = q ∨ j = p * q := by
  by_cases hpj : p ∣ j
  · obtain ⟨j', rfl⟩ := hpj
    have hj' : j' ∣ q := by
      have hp0 : 0 < p := hp.pos
      exact (Nat.mul_dvd_mul_iff_left hp0).mp hj
    rcases hq.eq_one_or_self_of_dvd j' hj' with h1 | h1
    · right; left; rw [h1, mul_one]
    · right; right; right; rw [h1]
  · have hco : Nat.Coprime j p :=
      ((Nat.Prime.coprime_iff_not_dvd hp).mpr hpj).symm
    have hjq : j ∣ q := Nat.Coprime.dvd_of_dvd_mul_left hco hj
    rcases hq.eq_one_or_self_of_dvd j hjq with h1 | h1
    · left; exact h1
    · right; right; left; exact h1

/-- The divisor scan on `n = p·q` (`p ≠ q` prime) finds `(max p q, min p q)`. -/
lemma findDivLoop_primes {p q : Int} (hp : Nat.Prime p.toNat) (hq : Nat.Prime q.toNat)
    (hplt : 0 < p) (hqlt : 0 < q) (hpq : p < q) :
    findDivLoop (p * q) (p * q - 1) = (q, p) := by
  have hp2 : 2 ≤ p := by
    have := hp.two_le
    omega
  have hq2 : 2 ≤ q := by
    have := hq.two_le
    omega
  have hqn : q ≤ p * q - 1 := by nlinarith
  have htdiv : (p * q).tdiv q = p := by
    rw [mul_comm, Int.mul_tdiv_cancel_left _ (by omega : q ≠ 0)]
  rw [findDivLoop_eq (p * q - 1).toNat (p * q - 1) rfl (p * q) q (by omega)
    (Dvd.intro_left _ rfl) hqn ?_, htdiv]
  intro j h1 h2 hjdvd
  have hj0 : 0 < j := by omega
  have hmulN : (p * q).toNat = p.toNat * q.toNat := by
    have hc : (((p * q).toNat : Int)) = ((p.toNat * q.toNat : Nat) : Int) := by
      rw [Int.toNat_of_nonneg (by positivity)]
      push_cast
      rw [Int.toNat_of_nonneg (by omega), Int.toNat_of_nonneg (by omega)]
    exact Nat.cast_inj.mp hc
  have hjN : j.toNat ∣ p.toNat * q.toNat := by
    rw [← hmulN]
    have hcast : ((j.toNat : Int)) ∣ (((p * q).toNat : Int)) := by
      rw [Int.toNat_of_nonneg (by omega), Int.toNat_of_nonneg (by positivity)]
      exact hjdvd
    exact_mod_cast hcast
  rcases dvd_prime_mul hp hq hjN with hc | hc | hc | hc
  · omega
  · omega
  · omega
  · rw [← hmulN] at hc
    omega

lemma findPrivateKey_spec_sorted {p q e : Int} (hp : Nat.Prime p.toNat)
    (hq : Nat.Prime q.toNat) (hp0 : 0 < p) (hq0 : 0 < q) (hlt : p < q)
    (he : 0 ≤ e) (hg : Int.gcd e ((p - 1) * (q - 1)) = 1) :
    0 ≤ findPrivateKey (p * q) e ∧ findPrivateKey (p * q) e < (p - 1) * (q - 1) ∧
    (e * findPrivateKey (p * q) e) % ((p - 1) * (q - 1)) =
      1 % ((p - 1) * (q - 1)) := by
  have hdiv := findDivLoop_primes hp hq hp0 hq0 hlt
  have hp2 : 2 ≤ p := by
    have := hp.two_le
    omega
  have hq2 : 2 ≤ q := by
    have := hq.two_le
    omega
  obtain ⟨s, t, hst⟩ : ∃ s t, mdcExtended e ((q - 1) * (p - 1)) = (s, t) :=
    ⟨_, _, rfl⟩
  have key : findPrivateKey (p * q) e =
      (if s < 0 then s + (q - 1) * (p - 1) else s) := by
    unfold findPrivateKey
    rw [hdiv]
    dsimp only
    rw [hst]
  have hg' : Int.gcd e ((q - 1) * (p - 1)) = 1 := by
    rw [mul_comm (q - 1) (p - 1)]
    exact hg
  have hres := bezout_normalized he (by nlinarith : (1 : Int) ≤ (q - 1) * (p - 1))
    hst hg' rfl
  rw [key, mul_comm (p - 1) (q - 1)]
  exact hres

/-- Specification of `findPrivateKey` on a product of two distinct primes,
for a nonnegative public exponent coprime to `(p-1)(q-1)`. -/
lemma findPrivateKey_spec {p q e : Int} (hp : Nat.Prime p.toNat)
    (hq : Nat.Prime q.toNat) (hp0 : 0 < p) (hq0 : 0 < q) (hpq : p ≠ q)
    (he : 0 ≤ e) (hg : Int.gcd e ((p - 1) * (q - 1)) = 1) :
    0 ≤ findPrivateKey (p * q) e ∧ findPrivateKey (p * q) e < (p - 1) * (q - 1) ∧
    (e * findPrivateKey (p * q) e) % ((p - 1) * (q - 1)) =
      1 % ((p - 1) * (q - 1)) := by
  rcases lt_or_gt_of_ne hpq with hlt | hgt
  · exact findPrivateKey_spec_sorted hp hq hp0 hq0 hlt he hg
  · have hg2 : Int.gcd e ((q - 1) * (p - 1)) = 1 := by
      rw [mul_comm (q - 1) (p - 1)]
      exact hg
    have h := findPrivateKey_spec_sorted hq hp hq0 hp0 hgt he hg2
    rw [mul_comm q p] at h
    rw [mul_comm (q - 1) (p - 1)] at h
    exact h

/-- Structural properties of every triple `genereateRSAKeys` can return:
the generated values are odd and ≥ 3, `e` is positive and coprime to
`phi = (p-1)(q-1)`, and `d` is the inverse of `e` in `[0, phi)`.
(`e < phi` does NOT hold in general.) -/
lemma genKeys_props {p q n e d : Int} (h : genereateRSAKeysFrom p q n e d) :
    3 ≤ p ∧ 3 ≤ q ∧ n = p * q ∧ 0 < e ∧ Int.gcd e ((p - 1) * (q - 1)) = 1 ∧
    0 ≤ d ∧ d < (p - 1) * (q - 1) ∧ (e * d) % ((p - 1) * (q - 1)) = 1 := by
  obtain ⟨⟨hp2, hple, hpp⟩, ⟨hq2, hqle, hqp⟩, hn, ⟨he0, helt, hmdc⟩, hd⟩ := h
  have hpodd : p % 2 = 1 := isPrime_out_odd hp2 hple hpp
  have hqodd : q % 2 = 1 := isPrime_out_odd hq2 hqle hqp
  have hp3 : 3 ≤ p := by omega
  have hq3 : 3 ≤ q := by omega
  have hphi4 : 4 ≤ (p - 1) * (q - 1) := by nlinarith
  have hphieven : ((p - 1) * (q - 1)) % 2 = 0 := by
    have h2 : (p - 1) % 2 = 0 := by omega
    obtain ⟨c, hc⟩ : (2 : Int) ∣ (p - 1) := by omega
    rw [hc]
    have : 2 * c * (q - 1) = 2 * (c * (q - 1)) := by ring
    rw [this, Int.mul_emod_right]
  have hgcd : Int.gcd e ((p - 1) * (q - 1)) = 1 := by
    rw [mdc_eval he0 (by omega)] at hmdc
    exact_mod_cast hmdc
  have hepos : 0 < e := by
    rcases eq_or_lt_of_le he0 with h0 | h0
    · exfalso
      rw [← h0] at hgcd
      rw [Int.gcd] at hgcd
      simp only [Int.natAbs_zero, Nat.gcd_zero_left] at hgcd
      omega
    · exact h0
  obtain ⟨s, t, hst⟩ : ∃ s t, mdcExtended e ((p - 1) * (q - 1)) = (s, t) :=
    ⟨_, _, rfl⟩
  have hd' : d = if s < 0 then s + (p - 1) * (q - 1) else s := by
    rw [hd, hst]
  have hres := bezout_normalized he0 (by omega) hst hgcd hd'
  refine ⟨hp3, hq3, hn, hepos, hgcd, hres.1, hres.2.1, ?_⟩
  rw [hres.2.2, Int.emod_eq_of_lt (by norm_num) (by omega)]

/-- Int-level RSA round trip through `modpow`, for distinct genuine primes. -/
lemma rsa_core_int {p q e d x : Int} (hp : Nat.Prime p.toNat)
    (hq : Nat.Prime q.toNat) (hp0 : 0 < p) (hq0 : 0 < q) (hpq : p ≠ q)
    (he : 1 ≤ e) (hd : 1 ≤ d)
    (hcong : (e * d) % ((p - 1) * (q - 1)) = 1) (hx0 : 0 ≤ x)
    (hxn : x < p * q) :
    modpow (modpow x e (p * q)) d (p * q) = x := by
  have hn0 : 0 < p * q := by positivity
  rw [modpow_spec hx0 hxn he]
  have hy0 : 0 ≤ x ^ e.toNat % (p * q) := Int.emod_nonneg _ (by omega)
  have hyn : x ^ e.toNat % (p * q) < p * q := Int.emod_lt_of_pos _ hn0
  rw [modpow_spec hy0 hyn hd]
  have hmodeq : Int.ModEq (p * q) (x ^ e.toNat % (p * q)) (x ^ e.toNat) :=
    Int.emod_emod_of_dvd _ dvd_rfl
  have hstep : (x ^ e.toNat % (p * q)) ^ d.toNat % (p * q) =
      x ^ (e.toNat * d.toNat) % (p * q) := by
    have h1 : (x ^ e.toNat % (p * q)) ^ d.toNat % (p * q) =
        (x ^ e.toNat) ^ d.toNat % (p * q) := Int.ModEq.pow d.toNat hmodeq
    rw [h1, ← pow_mul]
  rw [hstep]
  obtain ⟨xN, rfl⟩ := Int.eq_ofNat_of_zero_le hx0
  obtain ⟨pN, rfl⟩ := Int.eq_ofNat_of_zero_le (by omega : (0:Int) ≤ p)
  obtain ⟨qN, rfl⟩ := Int.eq_ofNat_of_zero_le (by omega : (0:Int) ≤ q)
  have hpN : Nat.Prime pN := by simpa using hp
  have hqN : Nat.Prime qN := by simpa using hq
  have hpqN : pN ≠ qN := fun hEq => hpq (by rw [hEq])
  have hp1 : 1 ≤ pN := hpN.one_lt.le
  have hq1 : 1 ≤ qN := hqN.one_lt.le
  have hcongN : (e.toNat * d.toNat) % ((pN - 1) * (qN - 1)) = 1 := by
    obtain ⟨eN, rfl⟩ := Int.eq_ofNat_of_zero_le (by omega : (0:Int) ≤ e)
    obtain ⟨dN, rfl⟩ := Int.eq_ofNat_of_zero_le (by omega : (0:Int) ≤ d)
    have hc1 : ((pN : Int) - 1) = ((pN - 1 : Nat) : Int) := by omega
    have hc2 : ((qN : Int) - 1) = ((qN - 1 : Nat) : Int) := by omega
    rw [hc1, hc2] at hcong
    have : (((eN * dN) % ((pN - 1) * (qN - 1)) : Nat) : Int) = ((1 : Nat) : Int) := by
      rw [Int.ofNat_emod]
      push_cast
      exact hcong
    have hNat : (eN * dN) % ((pN - 1) * (qN - 1)) = 1 := Nat.cast_inj.mp this
    simpa using hNat
  have hxN : xN < pN * qN := by exact_mod_cast hxn
  have hfin := rsa_core hpN hqN hpqN hcongN hxN
  have hcast : ((xN : Int)) ^ (e.toNat * d.toNat) % ((pN : Int) * (qN : Int)) =
      ((xN ^ (e.toNat * d.toNat) % (pN * qN) : Nat) : Int) := by
    rw [Int.ofNat_emod]
    push_cast
    ring_nf
  rw [hcast, hfin]

/-! ### The block codec: digits, `blockSize`, `encodeMessage`,
`decodeMessage` -/

/-- The character of a decimal digit (used to model `fmt.Sprintf("%d", ·)`). -/
def digitChar (d : Nat) : Char := Char.ofNat (48 + d)

/-- The value of a decimal digit character. -/
def charVal (c : Char) : Nat := c.toNat - 48

/-- Decimal rendering of a natural number, `fmt.Sprintf("%d", n)`. -/
def natStr (n : Nat) : List Char :=
  if n = 0 then ['0'] else ((Nat.digits 10 n).map digitChar).reverse

/-- Decimal rendering of an `Int`, `fmt.Sprintf("%d", v)`. -/
def intStr (v : Int) : List Char :=
  if v < 0 then '-' :: natStr (-v).toNat else natStr v.toNat

/-- Go `countDigits(n) = len(fmt.Sprintf("%d", n))`. -/
def countDigits (n : Int) : Nat := (intStr n).length

/-- Go `fmt.Sprintf("%0*d", w, v)`: left-pad the decimal rendering with
zeros to width `w`.  (For negative `v` Go places the sign before the added
zeros; the only negative value formatted in scope is `-1` at width 2,
where no zeros are added, so the difference is immaterial.) -/
def goPad0 (w : Nat) (v : Int) : List Char :=
  List.replicate (w - (intStr v).length) '0' ++ intStr v

/-- `rep25 k` is the integer value `strconv.Atoi` gives the string `"25"`
repeated `k` times — the running `blockI + "25"` value in Go `blockSize`. -/
def rep25 : Nat → Nat
  | 0 => 0
  | k + 1 => 100 * rep25 k + 25

lemma rep25_succ (k : Nat) : rep25 (k + 1) = 100 * rep25 k + 25 := rfl

lemma rep25_succ_lt (k : Nat) : rep25 (k + 1) < rep25 (k + 2) := by
  have h1 : rep25 (k + 1) = 100 * rep25 k + 25 := rfl
  have h2 : rep25 (k + 2) = 100 * rep25 (k + 1) + 25 := rfl
  omega

/-- The loop of Go `blockSize`: starting from `blockI = "25"` repeated `k`
times, keep appending `"25"` while the value stays ≤ n; return the length
of the last string whose value stayed ≤ n (`2k` digits for `k` pairs). -/
def blockSizeLoop (n : Int) (k : Nat) : Nat :=
  if (rep25 (k + 1) : Int) > n then 2 * k
  else blockSizeLoop n (k + 1)
termination_by (n + 1 - rep25 (k + 1)).toNat
decreasing_by
  have h : rep25 (k + 1) < rep25 (k + 1 + 1) := rep25_succ_lt k
  omega

/-- Go `blockSize(n)`: the number of digits of each plaintext block. -/
def blockSize (n : Int) : Nat := blockSizeLoop n 0

/-- The Go constant `alphabet = "ABCDEFGHIJKLMNOPQRSTUVWXYZ"`. -/
def alphabet : List Char := "ABCDEFGHIJKLMNOPQRSTUVWXYZ".toList

/-- Go `strings.Index(alphabet, string(c))`: the index of `c` in the
alphabet, or `-1` when `c` does not occur. -/
def letterDigit (c : Char) : Int :=
  match alphabet.findIdx? (fun a => a == c) with
  | some i => (i : Int)
  | none => -1

/-- The digit test of the Go integer parser: `'0' <= c && c <= '9'`. -/
def isDigitChar (c : Char) : Bool := 48 ≤ c.toNat && c.toNat ≤ 57

/-- The value of an all-digit string under `strconv.Atoi`. -/
def digitsVal (s : List Char) : Nat :=
  s.foldl (fun a c => a * 10 + charVal c) 0

/-- Go `strconv.Atoi(s)` as its callers use it: they ignore the error, so a
syntax error yields the value 0.  (The int64 range clamp is not modelled:
every parsed string in scope is far below 2^63.) -/
def atoi (s : List Char) : Int :=
  if s = [] then 0
  else if s.headD ' ' = '-' then
    (if s.drop 1 ≠ [] ∧ (s.drop 1).all isDigitChar
     then -(digitsVal (s.drop 1) : Int) else 0)
  else if s.headD ' ' = '+' then
    (if s.drop 1 ≠ [] ∧ (s.drop 1).all isDigitChar
     then (digitsVal (s.drop 1) : Int) else 0)
  else if s.all isDigitChar then (digitsVal s : Int) else 0

/-- The block-building loops of Go `encodeMessage`:
`for i := 0; i < len(ms); i += h` with `h = bSize/2`, each block being the
concatenation of `ms[i+j]` for `j < h`, padded with `"23"` (the letter X)
when the message runs out.  For `h = 0` and a nonempty `ms` the Go loop
never terminates; that unreachable case is modelled by `[]`. -/
def goBlocks (ms : List (List Char)) (h i : Nat) : List (List Char) :=
  if _hcond : 0 < h ∧ i < ms.length then
    (((List.range h).map
        (fun j => if i + j < ms.length then ms.getD (i + j) [] else ['2', '3'])).flatten)
      :: goBlocks ms h (i + h)
  else []
termination_by ms.length - i
decreasing_by omega

/-- Go `encodeMessage(n, e, msg)`: map each character to its two-digit
index, group into blocks of `blockSize(n)/2` letters (padding with X),
encrypt each block with `modpow(·, e, n)`, render zero-padded to
`countDigits n`, and join with a trailing space after every block. -/
def encodeMessage (n e : Int) (msg : List Char) : List Char :=
  let ms := msg.map (fun c => goPad0 2 (letterDigit c))
  let bSize := blockSize n
  let blocks := goBlocks ms (bSize / 2) 0
  let cblocks := blocks.map (fun b => goPad0 (countDigits n) (modpow (atoi b) e n))
  (cblocks.map (fun cb => cb ++ [' '])).flatten

/-- The chunking loop of Go `decodeMessage`: split into chunks of `w`
characters; a short final chunk hits `panic` (modelled `none`).  The case
`w = 0` (never reached: `countDigits ≥ 1`) would loop forever in Go and is
also modelled `none`. -/
def goChunks (s : List Char) (w i : Nat) : Option (List (List Char)) :=
  if _hcond : 0 < w ∧ i < s.length then
    if i + w ≤ s.length then
      (goChunks s w (i + w)).map (fun rest => ((s.drop i).take w) :: rest)
    else none
  else if i < s.length then none else some []
termination_by s.length - i
decreasing_by omega

/-- The letter-mapping loop of Go `decodeMessage` on one decoded block:
`for i := 0; i < len(b); i += 2`, reading the two-digit pair `b[i] b[i+1]`
(index out of range on an odd-length block panics) and indexing
`alphabet[letterint]` (out of range outside `[0, 26)` panics; `none`
models these panics). -/
def lettersOfBlock (b : List Char) (i : Nat) : Option (List Char) :=
  if i < b.length then
    if i + 1 < b.length then
      if 0 ≤ atoi [b.getD i ' ', b.getD (i + 1) ' '] ∧
          atoi [b.getD i ' ', b.getD (i + 1) ' '] < 26 then
        (lettersOfBlock b (i + 2)).map
          (fun rest => alphabet.getD (atoi [b.getD i ' ', b.getD (i + 1) ' ']).toNat ' ' :: rest)
      else none
    else none
  else some []
termination_by b.length - i
decreasing_by omega

/-- The outer letter-mapping loop over all decoded blocks. -/
def lettersOfBlocks : List (List Char) → Option (List Char)
  | [] => some []
  | b :: rest =>
    match lettersOfBlock b 0, lettersOfBlocks rest with
    | some l, some r => some (l ++ r)
    | _, _ => none

/-- Go `decodeMessage(n, d, msg)`: strip spaces, chunk into `countDigits n`
characters, decrypt each chunk with `modpow(·, d, n)`, zero-pad to
`blockSize n`, and map two-digit pairs back through the alphabet.
`none` models the Go panics. -/
def decodeMessage (n d : Int) (msg : List Char) : Option (List Char) :=
  let stripped := msg.filter (fun c => c != ' ')
  match goChunks stripped (countDigits n) 0 with
  | none => none
  | some cBlocks =>
      lettersOfBlocks
        (cBlocks.map (fun b => goPad0 (blockSize n) (modpow (atoi b) d n)))

/-! ### Concrete instances used by the claims -/

lemma isPrime_3 : isPrime 3 = true := by
  simpa using isPrime_of_odd_prime (by norm_num) (by norm_num)

lemma isPrime_5 : isPrime 5 = true := by
  simpa using isPrime_of_odd_prime (by norm_num) (by norm_num)

lemma isPrime_53 : isPrime 53 = true := by
  simpa using isPrime_of_odd_prime (by norm_num) (by norm_num)

lemma isPrime_61 : isPrime 61 = true := by
  simpa using isPrime_of_odd_prime (by norm_num) (by norm_num)

lemma mdcExtended_3_4 : mdcExtended 3 4 = (-1, 1) := by
  rw [mdcExtended,
    mdcExtendedLoop_step 0 (by norm_num) (by decide),
    mdcExtendedLoop_step 1 (by decide) (by decide),
    mdcExtendedLoop_step 3 (by decide) (by decide),
    mdcExtendedLoop, if_pos (by decide)]
  decide

lemma mdcExtended_65535_4 : mdcExtended 65535 4 = (-1, 16384) := by
  rw [mdcExtended,
    mdcExtendedLoop_step 16383 (by norm_num) (by decide),
    mdcExtendedLoop_step 1 (by decide) (by decide),
    mdcExtendedLoop_step 3 (by decide) (by decide),
    mdcExtendedLoop, if_pos (by decide)]
  decide

lemma mdcExtended_3_16 : mdcExtended 3 16 = (-5, 1) := by
  rw [mdcExtended,
    mdcExtendedLoop_step 0 (by norm_num) (by decide),
    mdcExtendedLoop_step 5 (by decide) (by decide),
    mdcExtendedLoop_step 3 (by decide) (by decide),
    mdcExtendedLoop, if_pos (by decide)]
  decide

lemma mdcExtended_3_8 : mdcExtended 3 8 = (3, -1) := by
  rw [mdcExtended,
    mdcExtendedLoop_step 0 (by norm_num) (by decide),
    mdcExtendedLoop_step 2 (by decide) (by decide),
    mdcExtendedLoop_step 1 (by decide) (by decide),
    mdcExtendedLoop_step 2 (by decide) (by decide),
    mdcExtendedLoop, if_pos (by decide)]
  decide

lemma mdcExtended_17_3120 : mdcExtended 17 3120 = (-367, 2) := by
  rw [mdcExtended,
    mdcExtendedLoop_step 0 (by norm_num) (by decide),
    mdcExtendedLoop_step 183 (by decide) (by decide),
    mdcExtendedLoop_step 1 (by decide) (by decide),
    mdcExtendedLoop_step 1 (by decide) (by decide),
    mdcExtendedLoop_step 8 (by decide) (by decide),
    mdcExtendedLoop, if_pos (by decide)]
  decide

lemma genKeysFrom_3_3 : genereateRSAKeysFrom 3 3 9 3 3 := by
  refine ⟨⟨by norm_num, by norm_num, isPrime_3⟩, ⟨by norm_num, by norm_num, isPrime_3⟩,
    by norm_num, ⟨by norm_num, by norm_num, ?_⟩, ?_⟩
  · rw [mdc_eval (by norm_num) (by norm_num)]
    norm_num
  · have h4 : ((3 : Int) - 1) * ((3 : Int) - 1) = 4 := by norm_num
    rw [h4, mdcExtended_3_4]
    norm_num

lemma genKeysFrom_3_3_65535 : genereateRSAKeysFrom 3 3 9 65535 3 := by
  refine ⟨⟨by norm_num, by norm_num, isPrime_3⟩, ⟨by norm_num, by norm_num, isPrime_3⟩,
    by norm_num, ⟨by norm_num, by norm_num, ?_⟩, ?_⟩
  · rw [mdc_eval (by norm_num) (by norm_num)]
    norm_num
  · have h4 : ((3 : Int) - 1) * ((3 : Int) - 1) = 4 := by norm_num
    rw [h4, mdcExtended_65535_4]
    norm_num

lemma genKeysFrom_3_5 : genereateRSAKeysFrom 3 5 15 3 3 := by
  refine ⟨⟨by norm_num, by norm_num, isPrime_3⟩, ⟨by norm_num, by norm_num, isPrime_5⟩,
    by norm_num, ⟨by norm_num, by norm_num, ?_⟩, ?_⟩
  · rw [mdc_eval (by norm_num) (by norm_num)]
    norm_num
  · have h8 : ((3 : Int) - 1) * ((5 : Int) - 1) = 8 := by norm_num
    rw [h8, mdcExtended_3_8]
    norm_num

lemma genKeysFrom_5_5 : genereateRSAKeysFrom 5 5 25 3 11 := by
  refine ⟨⟨by norm_num, by norm_num, isPrime_5⟩, ⟨by norm_num, by norm_num, isPrime_5⟩,
    by norm_num, ⟨by norm_num, by norm_num, ?_⟩, ?_⟩
  · rw [mdc_eval (by norm_num) (by norm_num)]
    norm_num
  · have h16 : ((5 : Int) - 1) * ((5 : Int) - 1) = 16 := by norm_num
    rw [h16, mdcExtended_3_16]
    norm_num

lemma genKeysFrom_61_53 : genereateRSAKeysFrom 61 53 3233 17 2753 := by
  refine ⟨⟨by norm_num, by norm_num, isPrime_61⟩, ⟨by norm_num, by norm_num, isPrime_53⟩,
    by norm_num, ⟨by norm_num, by norm_num, ?_⟩, ?_⟩
  · rw [mdc_eval (by norm_num) (by norm_num)]
    norm_num
  · have h : ((61 : Int) - 1) * ((53 : Int) - 1) = 3120 := by norm_num
    rw [h, mdcExtended_17_3120]
    norm_num

lemma findDivLoop_step {n i : Int} (h2 : 2 ≤ i) (hne : ¬ n.tmod i = 0) :
    findDivLoop n i = findDivLoop n (i - 1) := by
  rw [findDivLoop, if_pos h2, if_neg hne]

lemma findDivLoop_10 : findDivLoop 10 (10 - 1) = (5, 2) := by
  rw [findDivLoop_step (by norm_num) (by decide),
    findDivLoop_step (by norm_num) (by decide),
    findDivLoop_step (by norm_num) (by decide),
    findDivLoop_step (by norm_num) (by decide),
    findDivLoop, if_pos (by norm_num), if_pos (by decide)]
  decide

lemma mdcExtended_neg5_4 : mdcExtended (-5) 4 = (1, 1) := by
  rw [mdcExtended,
    mdcExtendedLoop_step (-1) (by norm_num) (by decide),
    mdcExtendedLoop_step (-4) (by decide) (by decide),
    mdcExtendedLoop, if_pos (by decide)]
  decide

lemma findPrivateKey_10_neg5 : findPrivateKey 10 (-5) = 1 := by
  unfold findPrivateKey
  rw [findDivLoop_10]
  dsimp only
  have h4 : ((5 : Int) - 1) * ((2 : Int) - 1) = 4 := by norm_num
  rw [h4, mdcExtended_neg5_4]
  norm_num

/-! ### Claims C2 .. C7 -/

/-- C2 as stated is false: `genereateRSAKeys` can return the triple
`(n, e, d) = (9, 3, 3)` (drawing `p = q = 3`, both of which pass `isPrime`),
and for `x = 3 < 9` the double `modpow` gives 0, not 3. -/
theorem C2_counterexample :
    genereateRSAKeysOut 9 3 3 ∧ 0 ≤ (3 : Int) ∧ (3 : Int) < 9 ∧
    modpow (modpow 3 3 9) 3 9 ≠ 3 := by
  refine ⟨⟨3, 3, genKeysFrom_3_3⟩, by norm_num, by norm_num, ?_⟩
  have ht : (3 : Int).toNat = 3 := rfl
  have h1 : modpow 3 3 9 = 0 := by
    rw [modpow_spec (by norm_num) (by norm_num) (by norm_num), ht]
    norm_num
  rw [h1]
  have h2 : modpow 0 3 9 = 0 := by
    rw [modpow_spec (by norm_num) (by norm_num) (by norm_num), ht]
    norm_num
  rw [h2]
  norm_num

/-- C2 amended: for every triple `genereateRSAKeys` can return whose two
generated values are *distinct genuine primes*, and every `0 ≤ x < n`,
`modpow (modpow x e n) d n = x`. -/
theorem C2_roundtrip : ∀ p q n e d x : Int, genereateRSAKeysFrom p q n e d →
    Nat.Prime p.toNat → Nat.Prime q.toNat → p ≠ q → 0 ≤ x → x < n →
    modpow (modpow x e n) d n = x := by
  intro p q n e d x hk hp hq hpq hx0 hxn
  obtain ⟨hp3, hq3, hn, hepos, hgcd, hd0, hdlt, hcong⟩ := genKeys_props hk
  have hd1 : 1 ≤ d := by
    rcases eq_or_lt_of_le hd0 with h0 | h0
    · exfalso
      rw [← h0] at hcong
      simp at hcong
    · omega
  subst hn
  exact rsa_core_int hp hq (by omega) (by omega) hpq hepos hd1 hcong hx0 hxn

/-- Witness for C2's amended round trip: the key `(15, 3, 3)` from the
distinct primes 3, 5 decrypts what it encrypts at `x = 2`. -/
theorem C2_roundtrip_witness : modpow (modpow 2 3 15) 3 15 = 2 :=
  C2_roundtrip 3 5 15 3 3 2 genKeysFrom_3_5 (by decide) (by decide)
    (by norm_num) (by norm_num) (by norm_num)

/-- In the wrap-free range `n ≤ 3037000499 = ⌊√(2^63)⌋` every intermediate
product of the squaring loop stays below `2^63`, so the `int64` model
`modpow64` agrees with the unbounded `modpow`. -/
lemma modpow64_eq_modpow : ∀ (bN : Nat) (a b n : Int), b.toNat = bN →
    0 ≤ a → a < n → n ≤ 3037000499 →
    modpow64 a b n = modpow a b n := by
  intro bN
  induction bN using Nat.strong_induction_on with
  | _ bN ih =>
    intro a b n hbN ha0 han hn
    have h63 : (2 : Int) ^ 63 = 9223372036854775808 := by norm_num
    have h64 : (2 : Int) ^ 64 = 18446744073709551616 := by norm_num
    rw [modpow64, modpow]
    by_cases hb : 2 ≤ b
    · rw [if_pos hb, if_pos hb]
      have htd : b.tdiv 2 = b / 2 := Int.tdiv_eq_ediv (by omega) (by omega)
      have hlt : (b.tdiv 2).toNat < bN := by
        rw [htd]
        omega
      have hrec : modpow64 a (b.tdiv 2) n = modpow a (b.tdiv 2) n :=
        ih (b.tdiv 2).toNat hlt a (b.tdiv 2) n rfl ha0 han hn
      rw [hrec]
      dsimp only
      set x := mod (modpow a (b.tdiv 2) n) n with hx
      have hxb : 0 ≤ x ∧ x < n := by
        rw [hx, mod_eq_emod _ (by omega)]
        exact ⟨Int.emod_nonneg _ (by omega), Int.emod_lt_of_pos _ (by omega)⟩
      have hxle : x ≤ 3037000498 := by omega
      have hxxle : x * x ≤ 3037000498 * 3037000498 :=
        mul_le_mul hxle hxle hxb.1 (by norm_num)
      have hxx : wrap64 (x * x) = x * x := by
        rw [wrap64, h63, h64]
        have h1 : 0 ≤ x * x := mul_nonneg hxb.1 hxb.1
        rw [Int.emod_eq_of_lt (by omega) (by omega)]
        ring
      rw [hxx]
      by_cases hpar : b.tmod 2 = 0
      · rw [if_pos hpar, if_pos hpar]
      · rw [if_neg hpar, if_neg hpar]
        have hyb : 0 ≤ mod (x * x) n ∧ mod (x * x) n < n := by
          rw [mod_eq_emod _ (by omega)]
          exact ⟨Int.emod_nonneg _ (by omega), Int.emod_lt_of_pos _ (by omega)⟩
        have hyle : mod (x * x) n ≤ 3037000498 := by omega
        have hale : a ≤ 3037000498 := by omega
        have hyale : mod (x * x) n * a ≤ 3037000498 * 3037000498 :=
          mul_le_mul hyle hale ha0 (by norm_num)
        have hw2 : wrap64 (mod (x * x) n * a) = mod (x * x) n * a := by
          rw [wrap64, h63, h64]
          have h1 : 0 ≤ mod (x * x) n * a := mul_nonneg hyb.1 ha0
          rw [Int.emod_eq_of_lt (by omega) (by omega)]
          ring
        rw [hw2]
    · rw [if_neg hb, if_neg hb]

/-- The `int64` evaluation Go actually performs on
`modpow(2^32+1, 2, 2^62-1)`: the square `(2^32+1)^2 = 2^64 + 2^33 + 1`
wraps to `2^33 + 1`. -/
lemma modpow64_wrap_eval :
    modpow64 4294967297 2 4611686018427387903 = 8589934593 := by
  rw [modpow64, modpow64]
  norm_num [mod, wrap64, Int.tdiv, Int.tmod]

/-- C3 as stated is false on its own domain `n ≥ 1`: the inputs
`a = 2^32 + 1`, `b = 2`, `n = 2^62 - 1` satisfy `1 ≤ n`, `0 ≤ a < n`,
`1 ≤ b`, yet Go's `int64` squaring wraps and `modpow` returns
`2^33 + 1 = 8589934593` instead of `a^b mod n = 2^33 + 5 = 8589934597`. -/
theorem C3_counterexample :
    (1 : Int) ≤ 4611686018427387903 ∧ (0 : Int) ≤ 4294967297 ∧
    (4294967297 : Int) < 4611686018427387903 ∧ (1 : Int) ≤ 2 ∧
    modpow64 4294967297 2 4611686018427387903 = 8589934593 ∧
    (4294967297 : Int) ^ (2 : Int).toNat % 4611686018427387903 = 8589934597 ∧
    modpow64 4294967297 2 4611686018427387903 ≠
      (4294967297 : Int) ^ (2 : Int).toNat % 4611686018427387903 := by
  have hpow : (4294967297 : Int) ^ (2 : Int).toNat % 4611686018427387903 =
      8589934597 := by
    have ht : (2 : Int).toNat = 2 := rfl
    rw [ht]
    norm_num
  refine ⟨by norm_num, by norm_num, by norm_num, by norm_num,
    modpow64_wrap_eval, hpow, ?_⟩
  rw [modpow64_wrap_eval, hpow]
  norm_num

/-- C3 amended: `modpow a b n = a^b mod n` for `1 ≤ n`, `0 ≤ a < n`,
`1 ≤ b` holds in the wrap-free range `n ≤ 3037000499 = ⌊√(2^63)⌋`, where
the `int64` squares cannot overflow (beyond it they can, as the separate
counterexample at `n = 2^62 - 1` shows); the textbook instances
`modpow 65 17 3233 = 2790` and `modpow 2790 2753 3233 = 65` lie in that
range. -/
theorem C3_modpow_pow :
    (∀ a b n : Int, 1 ≤ n → n ≤ 3037000499 → 0 ≤ a → a < n → 1 ≤ b →
      modpow64 a b n = a ^ b.toNat % n) ∧
    modpow64 65 17 3233 = 2790 ∧ modpow64 2790 2753 3233 = 65 := by
  have hgen : ∀ a b n : Int, 1 ≤ n → n ≤ 3037000499 → 0 ≤ a → a < n →
      1 ≤ b → modpow64 a b n = a ^ b.toNat % n := by
    intro a b n _ hn ha han hb
    rw [modpow64_eq_modpow b.toNat a b n rfl ha han hn]
    exact modpow_spec ha han hb
  refine ⟨hgen, ?_, ?_⟩
  · rw [hgen 65 17 3233 (by norm_num) (by norm_num) (by norm_num) (by norm_num)
      (by norm_num)]
    have ht : (17 : Int).toNat = 17 := rfl
    rw [ht]
    norm_num
  · rw [hgen 2790 2753 3233 (by norm_num) (by norm_num) (by norm_num)
      (by norm_num) (by norm_num)]
    have ht : (2753 : Int).toNat = 2753 := rfl
    rw [ht]
    norm_num

/-- C4 as stated is false: on the negative input `(a, b) = (-7, 3)` the
truncating quotients make `mdcExtended` return `(1, 2)` with
`-7·1 + 3·2 = -1 ≠ 1 = gcd(-7, 3)`. -/
theorem C4_counterexample :
    mdcExtended (-7) 3 = (1, 2) ∧
    (-7 : Int) * 1 + 3 * 2 ≠ ((Int.gcd (-7) 3 : Nat) : Int) := by
  constructor
  · rw [mdcExtended,
      mdcExtendedLoop_step (-2) (by norm_num) (by decide),
      mdcExtendedLoop_step (-3) (by decide) (by decide),
      mdcExtendedLoop, if_pos (by decide)]
    decide
  · norm_num

/-- C4 amended: for all *nonnegative* `a, b`, `mdcExtended a b = (s, t)`
satisfies `a·s + b·t = gcd a b`. -/
theorem C4_bezout : ∀ a b : Int, 0 ≤ a → 0 ≤ b →
    a * (mdcExtended a b).1 + b * (mdcExtended a b).2 = Int.gcd a b := by
  intro a b ha hb
  obtain ⟨aN, rfl⟩ := Int.eq_ofNat_of_zero_le ha
  obtain ⟨bN, rfl⟩ := Int.eq_ofNat_of_zero_le hb
  rw [mdcExtended_eq_egcdRec]
  have hg : Int.gcd (aN : Int) (bN : Int) = Nat.gcd aN bN := by
    simp [Int.gcd, Int.natAbs_ofNat]
  rw [hg]
  exact egcdRec_bezout bN bN rfl aN

/-- Witness for C4's amended Bezout identity at `(a, b) = (4, 6)`. -/
theorem C4_bezout_witness :
    (4 : Int) * (mdcExtended 4 6).1 + 6 * (mdcExtended 4 6).2 = Int.gcd 4 6 :=
  C4_bezout 4 6 (by norm_num) (by norm_num)

/-- C5 as stated is false on both sides: the prime 2 (below 54772) is
declared composite, and the Carmichael number 561 = 3·187, composite with
the factor 3 below the witness bound, is declared prime. -/
theorem C5_counterexample :
    (Nat.Prime 2 ∧ (2 : Int) < 54772 ∧ isPrime 2 = false) ∧
    ((561 : Int) = 3 * 187 ∧ isPrime 561 = true) :=
  ⟨⟨by norm_num, by norm_num, isPrime_two⟩, by norm_num, isPrime_561⟩

/-- C5 amended: `isPrime` accepts every *odd* prime (in particular every
odd prime below 54772), rejects the prime 2, and accepts the composite
Carmichael number 561. -/
theorem C5_fermat_test :
    (∀ p : Nat, p.Prime → 2 < p → p < 54772 → isPrime (p : Int) = true) ∧
    isPrime 2 = false ∧ isPrime 561 = true :=
  ⟨fun p hp h2 _ => isPrime_of_odd_prime hp h2, isPrime_two, isPrime_561⟩

/-- C6 as stated is false: `genereateRSAKeys` can return
`(n, e, d) = (9, 65535, 3)` from `p = q = 3`, where
`e = 65535 ≥ phi = 4` violates `e < φ(n)`. -/
theorem C6_counterexample :
    genereateRSAKeysFrom 3 3 9 65535 3 ∧
    ¬ ((65535 : Int) < ((3 : Int) - 1) * ((3 : Int) - 1)) :=
  ⟨genKeysFrom_3_3_65535, by norm_num⟩

/-- C6 amended: every returned triple satisfies `n = p·q`, `0 < e` with
`gcd(e, phi) = 1`, and `0 ≤ d < phi` with `e·d ≡ 1 (mod phi)` for
`phi = (p-1)(q-1)` — but `e < phi` need not hold. -/
theorem C6_keypair_model : ∀ p q n e d : Int, genereateRSAKeysFrom p q n e d →
    n = p * q ∧ 0 < e ∧ Int.gcd e ((p - 1) * (q - 1)) = 1 ∧
    0 ≤ d ∧ d < (p - 1) * (q - 1) ∧ (e * d) % ((p - 1) * (q - 1)) = 1 := by
  intro p q n e d h
  obtain ⟨-, -, hn, he, hg, h0, hlt, hc⟩ := genKeys_props h
  exact ⟨hn, he, hg, h0, hlt, hc⟩

/-- Witness for C6's amended key-pair model on the concrete triple
`(15, 3, 3)` generated from `p = 3, q = 5`. -/
theorem C6_keypair_model_witness :
    (15 : Int) = 3 * 5 ∧ 0 < (3 : Int) ∧
    Int.gcd 3 (((3 : Int) - 1) * ((5 : Int) - 1)) = 1 ∧
    0 ≤ (3 : Int) ∧ (3 : Int) < ((3 : Int) - 1) * ((5 : Int) - 1) ∧
    ((3 : Int) * 3) % (((3 : Int) - 1) * ((5 : Int) - 1)) = 1 :=
  C6_keypair_model 3 5 15 3 3 genKeysFrom_3_5

/-- C7 as stated is false for negative exponents: with `n = 10 = 5·2` and
`e = -5` (coprime to `phi = 4`), `findPrivateKey` returns `d = 1`, but
`-5·1 ≡ 3 (mod 4)`, not 1. -/
theorem C7_counterexample :
    (10 : Int) = 5 * 2 ∧ Nat.Prime (5 : Int).toNat ∧ Nat.Prime (2 : Int).toNat ∧
    (5 : Int) ≠ 2 ∧ Int.gcd (-5) (((5 : Int) - 1) * ((2 : Int) - 1)) = 1 ∧
    ¬ (((-5) * findPrivateKey 10 (-5)) % (((5 : Int) - 1) * ((2 : Int) - 1)) =
        1 % (((5 : Int) - 1) * ((2 : Int) - 1))) := by
  refine ⟨by norm_num, by decide, by decide, by norm_num, by norm_num, ?_⟩
  rw [findPrivateKey_10_neg5]
  decide

/-- C7 amended: for `n = p·q` with distinct primes `p, q` and every
*nonnegative* `e` with `gcd(e, (p-1)(q-1)) = 1`, `findPrivateKey` returns a
nonnegative `d` with `e·d ≡ 1 (mod (p-1)(q-1))`; in particular
`17 · findPrivateKey 3233 17 ≡ 1 (mod 3120)`. -/
theorem C7_recover_key :
    (∀ p q e : Int, Nat.Prime p.toNat → Nat.Prime q.toNat → 0 < p → 0 < q →
      p ≠ q → 0 ≤ e → Int.gcd e ((p - 1) * (q - 1)) = 1 →
      0 ≤ findPrivateKey (p * q) e ∧
      (e * findPrivateKey (p * q) e) % ((p - 1) * (q - 1)) =
        1 % ((p - 1) * (q - 1))) ∧
    0 ≤ findPrivateKey 3233 17 ∧
    (17 * findPrivateKey 3233 17) % 3120 = 1 := by
  have hgen : ∀ p q e : Int, Nat.Prime p.toNat → Nat.Prime q.toNat → 0 < p →
      0 < q → p ≠ q → 0 ≤ e → Int.gcd e ((p - 1) * (q - 1)) = 1 →
      0 ≤ findPrivateKey (p * q) e ∧
      (e * findPrivateKey (p * q) e) % ((p - 1) * (q - 1)) =
        1 % ((p - 1) * (q - 1)) := by
    intro p q e hp hq hp0 hq0 hpq he hg
    obtain ⟨h1, -, h3⟩ := findPrivateKey_spec hp hq hp0 hq0 hpq he hg
    exact ⟨h1, h3⟩
  refine ⟨hgen, ?_⟩
  have h := hgen 61 53 17 (by decide) (by decide) (by norm_num) (by norm_num)
    (by norm_num) (by norm_num) (by norm_num)
  have h1 : (61 : Int) * 53 = 3233 := by norm_num
  have h2 : ((61 : Int) - 1) * ((53 : Int) - 1) = 3120 := by norm_num
  rw [h1, h2] at h
  refine ⟨h.1, ?_⟩
  have h3 : (1 : Int) % 3120 = 1 := by norm_num
  rw [← h3]
  exact h.2

/-! ### Digit strings: values, rendering, padding -/

lemma digitsVal_foldl (s : List Char) : ∀ a : Nat,
    s.foldl (fun a c => a * 10 + charVal c) a = a * 10 ^ s.length + digitsVal s := by
  induction s with
  | nil => intro a; simp [digitsVal]
  | cons c t ih =>
    intro a
    simp only [List.foldl_cons, List.length_cons]
    rw [ih (a * 10 + charVal c)]
    have hd : digitsVal (c :: t) = charVal c * 10 ^ t.length + digitsVal t := by
      show (c :: t).foldl (fun a c => a * 10 + charVal c) 0 = _
      simp only [List.foldl_cons]
      rw [ih (0 * 10 + charVal c)]
      ring
    rw [hd]
    ring

lemma digitsVal_cons (c : Char) (t : List Char) :
    digitsVal (c :: t) = charVal c * 10 ^ t.length + digitsVal t := by
  show (c :: t).foldl (fun a c => a * 10 + charVal c) 0 = _
  simp only [List.foldl_cons]
  rw [digitsVal_foldl]
  ring

lemma digitsVal_append (s t : List Char) :
    digitsVal (s ++ t) = digitsVal s * 10 ^ t.length + digitsVal t := by
  show (s ++ t).foldl (fun a c => a * 10 + charVal c) 0 = _
  rw [List.foldl_append, digitsVal_foldl]
  rfl

lemma charVal_lt_ten {c : Char} (h : isDigitChar c = true) : charVal c < 10 := by
  simp only [isDigitChar, Bool.and_eq_true, decide_eq_true_eq] at h
  unfold charVal
  omega

lemma digitsVal_lt (s : List Char) (h : s.all isDigitChar = true) :
    digitsVal s < 10 ^ s.length := by
  induction s with
  | nil => simp [digitsVal]
  | cons c t ih =>
    simp only [List.all_cons, Bool.and_eq_true] at h
    have h1 : charVal c ≤ 9 := by
      have := charVal_lt_ten h.1
      omega
    have h2 := ih h.2
    rw [digitsVal_cons, List.length_cons, pow_succ]
    have h3 : charVal c * 10 ^ t.length ≤ 9 * 10 ^ t.length :=
      Nat.mul_le_mul_right _ h1
    omega

lemma charVal_digitChar {d : Nat} (h : d < 10) : charVal (digitChar d) = d := by
  interval_cases d <;> decide

lemma isDigitChar_digitChar {d : Nat} (h : d < 10) :
    isDigitChar (digitChar d) = true := by
  interval_cases d <;> decide

lemma digitChar_ne_zero {d : Nat} (h : d < 10) (h0 : d ≠ 0) : digitChar d ≠ '0' := by
  interval_cases d <;> first | omega | decide

lemma digitsVal_rev_map (L : List Nat) (hL : ∀ l ∈ L, l < 10) :
    digitsVal ((L.map digitChar).reverse) = Nat.ofDigits 10 L := by
  induction L with
  | nil => simp [digitsVal, Nat.ofDigits]
  | cons d L ih =>
    simp only [List.map_cons, List.reverse_cons]
    rw [digitsVal_append, ih (fun l hl => hL l (List.mem_cons_of_mem d hl)),
      Nat.ofDigits_cons]
    have hd : digitsVal [digitChar d] = d := by
      rw [show [digitChar d] = digitChar d :: ([] : List Char) from rfl,
        digitsVal_cons, charVal_digitChar (hL d (List.mem_cons_self d L))]
      simp [digitsVal]
    rw [hd]
    simp only [List.length_cons, List.length_nil]
    ring

lemma digitChar_charVal {x : Char} (h : isDigitChar x = true) :
    digitChar (charVal x) = x := by
  have h48 : 48 + (x.toNat - 48) = x.toNat := by
    simp only [isDigitChar, Bool.and_eq_true, decide_eq_true_eq] at h
    omega
  unfold digitChar charVal
  rw [h48, Char.ofNat_toNat]

lemma charVal_ne_zero {c : Char} (hd : isDigitChar c = true) (h0 : c ≠ '0') :
    charVal c ≠ 0 := by
  intro hz
  apply h0
  have htn : c.toNat = 48 := by
    simp only [isDigitChar, Bool.and_eq_true, decide_eq_true_eq] at hd
    unfold charVal at hz
    omega
  have hcc : Char.ofNat c.toNat = c := Char.ofNat_toNat c
  rw [htn] at hcc
  rw [← hcc]

lemma map_digitChar_charVal {s : List Char} (h : ∀ x ∈ s, isDigitChar x = true) :
    (((s.map charVal).reverse).map digitChar).reverse = s := by
  rw [← List.map_reverse, List.reverse_reverse, List.map_map]
  have hmem : ∀ x ∈ s, (digitChar ∘ charVal) x = id x := fun x hx =>
    digitChar_charVal (h x hx)
  rw [List.map_congr_left hmem, List.map_id]

/-- Canonical form: rendering the value of a digit string with no leading
zero gives the string back. -/
lemma natStr_digitsVal (c : Char) (t : List Char) (hc : isDigitChar c = true)
    (ht : t.all isDigitChar = true) (hc0 : c ≠ '0') :
    natStr (digitsVal (c :: t)) = c :: t := by
  have hsd : ∀ x ∈ c :: t, isDigitChar x = true := by
    intro x hx
    rcases List.mem_cons.mp hx with rfl | hx
    · exact hc
    · exact List.all_eq_true.mp ht x hx
  have hLlt : ∀ l ∈ ((c :: t).map charVal).reverse, l < 10 := by
    intro l hl
    rw [List.mem_reverse] at hl
    obtain ⟨x, hx, rfl⟩ := List.mem_map.mp hl
    exact charVal_lt_ten (hsd x hx)
  have h2 : ((((c :: t).map charVal).reverse).map digitChar).reverse = c :: t :=
    map_digitChar_charVal hsd
  have hcv : charVal c ≠ 0 := charVal_ne_zero hc hc0
  have hlast : ∀ h : ((c :: t).map charVal).reverse ≠ [],
      (((c :: t).map charVal).reverse).getLast h ≠ 0 := by
    intro h
    rw [List.getLast_reverse]
    simpa using hcv
  have hval : digitsVal (c :: t) = Nat.ofDigits 10 (((c :: t).map charVal).reverse) := by
    have h1 := digitsVal_rev_map (((c :: t).map charVal).reverse) hLlt
    rw [h2] at h1
    exact h1
  have hvne : digitsVal (c :: t) ≠ 0 := by
    rw [digitsVal_cons]
    have hp1 : 0 < charVal c := Nat.pos_of_ne_zero hcv
    have hp2 : 0 < 10 ^ t.length := Nat.pos_pow_of_pos _ (by norm_num)
    have := Nat.mul_pos hp1 hp2
    omega
  unfold natStr
  rw [if_neg hvne, hval,
    Nat.digits_ofDigits 10 (by norm_num) _ hLlt hlast, h2]

lemma natStr_ne_nil (n : Nat) : natStr n ≠ [] := by
  unfold natStr
  by_cases h : n = 0
  · simp [h]
  · rw [if_neg h]
    simp [Nat.digits_ne_nil_iff_ne_zero.mpr h]

lemma natStr_all_digits (n : Nat) : (natStr n).all isDigitChar = true := by
  unfold natStr
  by_cases h : n = 0
  · rw [if_pos h]
    decide
  · rw [if_neg h]
    rw [List.all_eq_true]
    intro x hx
    rw [List.mem_reverse] at hx
    obtain ⟨d, hd, rfl⟩ := List.mem_map.mp hx
    exact isDigitChar_digitChar (Nat.digits_lt_base (by norm_num) hd)

lemma digitsVal_natStr (n : Nat) : digitsVal (natStr n) = n := by
  unfold natStr
  by_cases h : n = 0
  · rw [if_pos h, h]
    decide
  · rw [if_neg h,
      digitsVal_rev_map _ (fun d hd => Nat.digits_lt_base (by norm_num) hd),
      Nat.ofDigits_digits]

lemma natStr_length_le {n w : Nat} (hw : 1 ≤ w) (h : n < 10 ^ w) :
    (natStr n).length ≤ w := by
  unfold natStr
  by_cases h0 : n = 0
  · rw [if_pos h0]
    simpa using hw
  · rw [if_neg h0]
    simp only [List.length_reverse, List.length_map]
    rw [Nat.digits_len 10 n (by norm_num) h0]
    have := (Nat.lt_pow_iff_log_lt (by norm_num : (1:Nat) < 10) h0).mp h
    omega

lemma natStr_lt (n : Nat) : n < 10 ^ (natStr n).length := by
  have h1 := digitsVal_lt (natStr n) (natStr_all_digits n)
  rw [digitsVal_natStr n] at h1
  exact h1

lemma intStr_ofNat (vN : Nat) : intStr ((vN : Nat) : Int) = natStr vN := by
  unfold intStr
  rw [if_neg (by omega)]
  simp

lemma goPad0_eq (w : Nat) (vN : Nat) :
    goPad0 w ((vN : Nat) : Int) =
      List.replicate (w - (natStr vN).length) '0' ++ natStr vN := by
  unfold goPad0
  rw [intStr_ofNat]

lemma goPad0_length {w vN : Nat} (h : (natStr vN).length ≤ w) :
    (goPad0 w ((vN : Nat) : Int)).length = w := by
  rw [goPad0_eq]
  simp only [List.length_append, List.length_replicate]
  omega

lemma goPad0_all_digits (w vN : Nat) :
    (goPad0 w ((vN : Nat) : Int)).all isDigitChar = true := by
  rw [goPad0_eq, List.all_append, Bool.and_eq_true]
  refine ⟨?_, natStr_all_digits vN⟩
  rw [List.all_eq_true]
  intro x hx
  rw [List.eq_of_mem_replicate hx]
  decide

lemma digitsVal_replicate_zero (k : Nat) :
    digitsVal (List.replicate k '0') = 0 := by
  induction k with
  | zero => rfl
  | succ k ih =>
    rw [List.replicate_succ, digitsVal_cons, ih]
    have h0 : charVal '0' = 0 := rfl
    rw [h0]
    ring

lemma digitsVal_goPad0 (w vN : Nat) :
    digitsVal (goPad0 w ((vN : Nat) : Int)) = vN := by
  rw [goPad0_eq, digitsVal_append, digitsVal_replicate_zero, digitsVal_natStr]
  ring

lemma atoi_digits {s : List Char} (h1 : s ≠ []) (h2 : s.all isDigitChar = true) :
    atoi s = digitsVal s := by
  obtain ⟨c, t, rfl⟩ : ∃ c t, s = c :: t := by
    rcases s with _ | ⟨c, t⟩
    · exact absurd rfl h1
    · exact ⟨c, t, rfl⟩
  have hc : isDigitChar c = true := by
    rw [List.all_eq_true] at h2
    exact h2 c (List.mem_cons_self c t)
  have hcn : 48 ≤ c.toNat ∧ c.toNat ≤ 57 := by
    simpa [isDigitChar, Bool.and_eq_true, decide_eq_true_eq] using hc
  unfold atoi
  rw [if_neg h1]
  have hminus : ¬ (c :: t).headD ' ' = '-' := by
    intro hEq
    have : c = '-' := hEq
    rw [this] at hcn
    revert hcn
    decide
  have hplus : ¬ (c :: t).headD ' ' = '+' := by
    intro hEq
    have : c = '+' := hEq
    rw [this] at hcn
    revert hcn
    decide
  rw [if_neg hminus, if_neg hplus, if_pos h2]

lemma atoi_goPad0 (w vN : Nat) : atoi (goPad0 w ((vN : Nat) : Int)) = vN := by
  have hne : goPad0 w ((vN : Nat) : Int) ≠ [] := by
    rw [goPad0_eq]
    intro h
    exact natStr_ne_nil vN (List.append_eq_nil.mp h).2
  rw [atoi_digits hne (goPad0_all_digits w vN), digitsVal_goPad0]

/-- Padding the value of a nonempty digit string back to its own width
reconstructs the string. -/
lemma goPad0_canonical : ∀ (s : List Char), s ≠ [] → s.all isDigitChar = true →
    goPad0 s.length ((digitsVal s : Nat) : Int) = s := by
  intro s
  induction s with
  | nil => intro h; exact absurd rfl h
  | cons c t ih =>
    intro _ hdig
    simp only [List.all_cons, Bool.and_eq_true] at hdig
    by_cases hc0 : c = '0'
    · subst hc0
      have hval : digitsVal ('0' :: t) = digitsVal t := by
        rw [digitsVal_cons]
        have h0 : charVal '0' = 0 := rfl
        rw [h0]
        ring
      rcases t with _ | ⟨c', t'⟩
      · rw [hval]
        rfl
      · have hrec := ih (by simp) hdig.2
        rw [hval]
        have hlen : (natStr (digitsVal (c' :: t'))).length ≤ (c' :: t').length := by
          apply natStr_length_le (by simp)
          exact digitsVal_lt _ hdig.2
        rw [goPad0_eq] at hrec ⊢
        have hlc : ('0' :: c' :: t').length - (natStr (digitsVal (c' :: t'))).length =
            ((c' :: t').length - (natStr (digitsVal (c' :: t'))).length) + 1 := by
          simp only [List.length_cons] at hlen ⊢
          omega
        rw [hlc, List.replicate_succ]
        simp only [List.cons_append]
        rw [show (List.replicate ((c' :: t').length -
          (natStr (digitsVal (c' :: t'))).length) '0' ++ natStr (digitsVal (c' :: t'))) =
          c' :: t' from hrec]
    · have hcan := natStr_digitsVal c t hdig.1 (by
        rw [List.all_eq_true]
        intro x hx
        exact List.all_eq_true.mp hdig.2 x hx) hc0
      rw [goPad0_eq, hcan]
      rw [show (c :: t).length - (c :: t).length = 0 from by omega]
      rfl

/-! ### `blockSize` and block structure -/

lemma rep25_front (k : Nat) : rep25 (k + 1) = 25 * 100 ^ k + rep25 k := by
  induction k with
  | zero => rfl
  | succ k ih =>
    have h1 : rep25 (k + 2) = 100 * rep25 (k + 1) + 25 := rfl
    have h2 : rep25 (k + 1) = 100 * rep25 k + 25 := rfl
    calc rep25 (k + 2) = 100 * rep25 (k + 1) + 25 := h1
      _ = 100 * (25 * 100 ^ k + rep25 k) + 25 := by rw [ih]
      _ = 25 * 100 ^ (k + 1) + (100 * rep25 k + 25) := by ring
      _ = 25 * 100 ^ (k + 1) + rep25 (k + 1) := by rw [← h2]

lemma rep25_dvd_25 (k : Nat) : 25 ∣ rep25 k := by
  induction k with
  | zero => exact ⟨0, rfl⟩
  | succ k ih =>
    rw [rep25_succ]
    exact Dvd.dvd.add (Dvd.dvd.mul_left ih 100) dvd_rfl

lemma blockSizeLoop_spec : ∀ (fuel : Nat) (n : Int) (k : Nat),
    (n + 1 - rep25 (k + 1)).toNat = fuel → 0 ≤ n → (rep25 k : Int) ≤ n →
    ∃ m, k ≤ m ∧ blockSizeLoop n k = 2 * m ∧ (rep25 m : Int) ≤ n ∧
      n < rep25 (m + 1) := by
  intro fuel
  induction fuel using Nat.strong_induction_on with
  | _ fuel ih =>
    intro n k hfuel hn hk
    rw [blockSizeLoop]
    by_cases hgt : (rep25 (k + 1) : Int) > n
    · rw [if_pos hgt]
      exact ⟨k, le_rfl, rfl, hk, hgt⟩
    · rw [if_neg hgt]
      push_neg at hgt
      have hmono : rep25 (k + 1) < rep25 (k + 1 + 1) := rep25_succ_lt k
      obtain ⟨m, hm1, hm2, hm3, hm4⟩ :=
        ih (n + 1 - rep25 (k + 1 + 1)).toNat (by omega) n (k + 1) rfl hn hgt
      exact ⟨m, by omega, hm2, hm3, hm4⟩

lemma blockSize_spec (n : Int) (hn : 0 ≤ n) :
    ∃ m, blockSize n = 2 * m ∧ (rep25 m : Int) ≤ n ∧ n < rep25 (m + 1) := by
  obtain ⟨m, -, h2, h3, h4⟩ := blockSizeLoop_spec (n + 1 - rep25 1).toNat n 0 rfl hn
    (by simpa using hn)
  exact ⟨m, h2, h3, h4⟩

lemma flatten_pairs : ∀ ps : List (List Char),
    (∀ x ∈ ps, x.length = 2 ∧ x.all isDigitChar = true ∧ digitsVal x ≤ 25) →
    ps.flatten.length = 2 * ps.length ∧ ps.flatten.all isDigitChar = true ∧
      digitsVal ps.flatten ≤ rep25 ps.length := by
  intro ps
  induction ps with
  | nil => intro _; refine ⟨rfl, rfl, ?_⟩; simp [digitsVal, rep25]
  | cons x ps ih =>
    intro h
    obtain ⟨hx1, hx2, hx3⟩ := h x (List.mem_cons_self x ps)
    obtain ⟨ih1, ih2, ih3⟩ := ih (fun y hy => h y (List.mem_cons_of_mem x hy))
    rw [List.flatten_cons]
    refine ⟨?_, ?_, ?_⟩
    · rw [List.length_append, hx1, ih1, List.length_cons]
      ring
    · rw [List.all_append, hx2, ih2]
      rfl
    · rw [digitsVal_append, List.length_cons, rep25_front, ih1]
      have hv : digitsVal x * 10 ^ (2 * ps.length) ≤ 25 * 100 ^ ps.length := by
        have hpow : (10 : Nat) ^ (2 * ps.length) = 100 ^ ps.length := by
          rw [pow_mul]
          norm_num
        rw [hpow]
        exact Nat.mul_le_mul_right _ hx3
      omega

lemma range_map_getD (ms : List (List Char)) : ∀ (h i : Nat), i + h ≤ ms.length →
    (List.range h).map
      (fun j => if i + j < ms.length then ms.getD (i + j) [] else ['2', '3']) =
    (ms.drop i).take h := by
  intro h
  induction h with
  | zero => intro i _; simp
  | succ h ih =>
    intro i hih
    rw [List.range_succ_eq_map, List.map_cons, List.map_map]
    have hi : i < ms.length := by omega
    have hf0 : (if i + 0 < ms.length then ms.getD (i + 0) [] else ['2', '3']) =
        ms.getD i [] := by
      rw [if_pos (by omega)]
      norm_num
    have hdrop : ms.drop i = ms[i] :: ms.drop (i + 1) :=
      List.drop_eq_getElem_cons hi
    rw [hf0, hdrop, List.take_succ_cons]
    have hfun : ((fun j => if i + j < ms.length then ms.getD (i + j) [] else
        ['2', '3']) ∘ Nat.succ) = (fun j => if (i + 1) + j < ms.length then
        ms.getD ((i + 1) + j) [] else ['2', '3']) := by
      funext j
      simp only [Function.comp]
      have harith : i + (j + 1) = (i + 1) + j := by omega
      rw [show i + j.succ = (i + 1) + j from harith]
    rw [hfun, ih (i + 1) (by omega)]
    rw [List.getD_eq_getElem ms [] hi]

lemma lettersOfBlock_shift : ∀ (fuel : Nat) (t : List Char) (i : Nat),
    t.length - i = fuel → ∀ x : List Char,
    lettersOfBlock (x ++ t) (x.length + i) = lettersOfBlock t i := by
  intro fuel
  induction fuel using Nat.strong_induction_on with
  | _ fuel ih =>
    intro t i hfuel x
    rw [lettersOfBlock]
    conv_rhs => rw [lettersOfBlock]
    simp only [List.length_append]
    by_cases h1 : i < t.length
    · rw [if_pos (by omega), if_pos h1]
      by_cases h2 : i + 1 < t.length
      · have hg1 : (x ++ t).getD (x.length + i) ' ' = t.getD i ' ' := by
          rw [List.getD_append_right x t ' ' (x.length + i) (by omega)]
          congr 1
          omega
        have hg2 : (x ++ t).getD (x.length + i + 1) ' ' = t.getD (i + 1) ' ' := by
          rw [List.getD_append_right x t ' ' (x.length + i + 1) (by omega)]
          congr 1
          omega
        rw [if_pos (by omega), if_pos h2, hg1, hg2]
        by_cases h3 : 0 ≤ atoi [t.getD i ' ', t.getD (i + 1) ' '] ∧
            atoi [t.getD i ' ', t.getD (i + 1) ' '] < 26
        · rw [if_pos h3, if_pos h3]
          have hrec : lettersOfBlock (x ++ t) (x.length + i + 2) =
              lettersOfBlock t (i + 2) := by
            have h := ih (t.length - (i + 2)) (by omega) t (i + 2) rfl x
            rw [show x.length + (i + 2) = x.length + i + 2 from by omega] at h
            exact h
          rw [hrec]
        · rw [if_neg h3, if_neg h3]
      · rw [if_neg (by omega), if_neg h2]
    · rw [if_neg (by omega), if_neg h1]

lemma goChunks_shift : ∀ (fuel : Nat) (t : List Char) (i : Nat),
    t.length - i = fuel → ∀ (b : List Char) (w : Nat), b.length = w → 0 < w →
    goChunks (b ++ t) w (w + i) = goChunks t w i := by
  intro fuel
  induction fuel using Nat.strong_induction_on with
  | _ fuel ih =>
    intro t i hfuel b w hb hw
    rw [goChunks]
    conv_rhs => rw [goChunks]
    simp only [List.length_append, hb]
    by_cases h1 : i < t.length
    · rw [dif_pos ⟨hw, by omega⟩, dif_pos ⟨hw, h1⟩]
      by_cases h2 : i + w ≤ t.length
      · rw [if_pos (by omega), if_pos h2]
        have hdrop : (b ++ t).drop (w + i) = t.drop i := by
          rw [← hb, List.drop_append]
        rw [hdrop]
        have hrec : goChunks (b ++ t) w (w + i + w) = goChunks t w (i + w) := by
          have h := ih (t.length - (i + w)) (by omega) t (i + w) rfl b w hb hw
          rw [show w + (i + w) = w + i + w from by omega] at h
          exact h
        rw [hrec]
      · rw [if_neg (by omega), if_neg h2]
    · rw [dif_neg (by omega), dif_neg (by omega),
        if_neg (by omega), if_neg h1]

lemma lettersOfBlock_flatten : ∀ ps : List (List Char),
    (∀ x ∈ ps, x.length = 2 ∧ 0 ≤ atoi x ∧ atoi x < 26) →
    lettersOfBlock ps.flatten 0 =
      some (ps.map (fun x => alphabet.getD (atoi x).toNat ' ')) := by
  intro ps
  induction ps with
  | nil =>
    intro _
    rw [lettersOfBlock]
    simp
  | cons x ps ih =>
    intro h
    obtain ⟨hx1, hx2, hx3⟩ := h x (List.mem_cons_self x ps)
    obtain ⟨a, b, rfl⟩ : ∃ a b, x = [a, b] := by
      rcases x with _ | ⟨a, _ | ⟨b, _ | ⟨c, x⟩⟩⟩
      · simp at hx1
      · simp at hx1
      · exact ⟨a, b, rfl⟩
      · simp only [List.length_cons] at hx1
        omega
    rw [List.flatten_cons, lettersOfBlock]
    have hlen : ([a, b] ++ ps.flatten).length = 2 + ps.flatten.length := by
      simp only [List.length_append, List.length_cons, List.length_nil]
    rw [if_pos (by rw [hlen]; omega), if_pos (by rw [hlen]; omega)]
    have hg1 : ([a, b] ++ ps.flatten).getD 0 ' ' = a := rfl
    have hg2 : ([a, b] ++ ps.flatten).getD 1 ' ' = b := rfl
    rw [hg1, hg2]
    rw [if_pos ⟨hx2, hx3⟩]
    have hshift : lettersOfBlock ([a, b] ++ ps.flatten) 2 =
        lettersOfBlock ps.flatten 0 := by
      have h := lettersOfBlock_shift ps.flatten.length ps.flatten 0 (by omega) [a, b]
      simpa using h
    rw [hshift, ih (fun y hy => h y (List.mem_cons_of_mem _ hy))]
    rfl

lemma goChunks_flatten : ∀ (cbs : List (List Char)) (w : Nat), 0 < w →
    (∀ b ∈ cbs, b.length = w) → goChunks cbs.flatten w 0 = some cbs := by
  intro cbs
  induction cbs with
  | nil =>
    intro w hw _
    rw [goChunks]
    simp
  | cons b rest ih =>
    intro w hw h
    have hb : b.length = w := h b (List.mem_cons_self b rest)
    rw [List.flatten_cons, goChunks]
    have hlen : (b ++ rest.flatten).length = w + rest.flatten.length := by
      simp [hb]
    rw [dif_pos ⟨hw, by rw [hlen]; omega⟩, if_pos (by rw [hlen]; omega)]
    have hchunk : ((b ++ rest.flatten).drop 0).take w = b := by
      rw [List.drop_zero, ← hb, List.take_left]
    have hshift : goChunks (b ++ rest.flatten) w (0 + w) =
        goChunks rest.flatten w 0 := by
      have hs := goChunks_shift rest.flatten.length rest.flatten 0 (by omega) b w hb hw
      simpa using hs
    rw [hchunk, hshift, ih w hw (fun y hy => h y (List.mem_cons_of_mem _ hy))]
    rfl

lemma filter_space_flatten : ∀ cbs : List (List Char),
    (∀ b ∈ cbs, b.all isDigitChar = true) →
    ((cbs.map (fun cb => cb ++ [' '])).flatten).filter (fun c => c != ' ') =
      cbs.flatten := by
  intro cbs
  induction cbs with
  | nil => intro _; rfl
  | cons b rest ih =>
    intro h
    rw [List.map_cons, List.flatten_cons, List.flatten_cons, List.filter_append,
      List.filter_append]
    have h1 : b.filter (fun c => c != ' ') = b := by
      rw [List.filter_eq_self]
      intro c hc
      have hd := List.all_eq_true.mp (h b (List.mem_cons_self b rest)) c hc
      simp only [isDigitChar, Bool.and_eq_true, decide_eq_true_eq] at hd
      simp only [bne_iff_ne, ne_eq]
      intro hEq
      rw [hEq] at hd
      revert hd
      decide
    have h2 : ([' '] : List Char).filter (fun c => c != ' ') = [] := rfl
    rw [h1, h2, ih (fun y hy => h y (List.mem_cons_of_mem _ hy))]
    simp

/-- The grouped blocks of an exact-multiple message: every block is a
`2h`-digit string of pairs ≤ 25, and decoding the letters of all blocks
recovers the message characters. -/
lemma goBlocks_exact : ∀ (fuel : Nat) (ms : List (List Char)) (h i : Nat),
    ms.length - i = fuel → 0 < h → (∃ a, i = h * a) → (∃ b, ms.length = h * b) →
    (∀ x ∈ ms, x.length = 2 ∧ x.all isDigitChar = true ∧ digitsVal x ≤ 25) →
    (∀ bb ∈ goBlocks ms h i, bb.length = 2 * h ∧ bb.all isDigitChar = true ∧
      digitsVal bb ≤ rep25 h) ∧
    lettersOfBlocks (goBlocks ms h i) =
      some ((ms.drop i).map (fun x => alphabet.getD (atoi x).toNat ' ')) := by
  intro fuel
  induction fuel using Nat.strong_induction_on with
  | _ fuel ih =>
    intro ms h i hfuel hh ha' hb'
    obtain ⟨a, ha⟩ := ha'
    obtain ⟨b, hb⟩ := hb'
    intro hmem
    rw [goBlocks]
    by_cases hi : i < ms.length
    · have hab : a < b := by
        by_contra hab
        push_neg at hab
        have := Nat.mul_le_mul_left h hab
        omega
      have hle : i + h ≤ ms.length := by
        calc i + h = h * (a + 1) := by rw [ha]; ring
          _ ≤ h * b := Nat.mul_le_mul_left h (by omega)
          _ = ms.length := hb.symm
      rw [dif_pos ⟨hh, hi⟩, range_map_getD ms h i hle]
      have hpieces : ∀ x ∈ (ms.drop i).take h,
          x.length = 2 ∧ x.all isDigitChar = true ∧ digitsVal x ≤ 25 :=
        fun x hx => hmem x (List.mem_of_mem_drop (List.mem_of_mem_take hx))
      have htakelen : ((ms.drop i).take h).length = h := by
        rw [List.length_take, List.length_drop]
        omega
      obtain ⟨hblen, hbdig, hbval⟩ := flatten_pairs _ hpieces
      rw [htakelen] at hblen hbval
      have hatoi : ∀ x ∈ (ms.drop i).take h,
          x.length = 2 ∧ 0 ≤ atoi x ∧ atoi x < 26 := by
        intro x hx
        obtain ⟨h1, h2, h3⟩ := hpieces x hx
        have hne : x ≠ [] := List.ne_nil_of_length_pos (by omega)
        rw [atoi_digits hne h2]
        refine ⟨h1, by omega, ?_⟩
        exact_mod_cast Nat.lt_succ_of_le h3
      have hIH := ih (ms.length - (i + h)) (by omega) ms h (i + h) rfl hh
        ⟨a + 1, by rw [ha]; ring⟩ ⟨b, hb⟩ hmem
      constructor
      · intro bb hbb
        rcases List.mem_cons.mp hbb with rfl | hbb
        · exact ⟨hblen, hbdig, hbval⟩
        · exact hIH.1 bb hbb
      · rw [lettersOfBlocks, lettersOfBlock_flatten _ hatoi, hIH.2]
        have hdd : ms.drop (i + h) = (ms.drop i).drop h := by
          rw [List.drop_drop]
        rw [hdd]
        dsimp only
        rw [← List.map_append, List.take_append_drop]
    · rw [dif_neg (by omega)]
      refine ⟨by intro bb hbb; exact absurd hbb (List.not_mem_nil bb), ?_⟩
      rw [List.drop_eq_nil_of_le (by omega)]
      rfl

/-- Padding a message list with whole-pad `"23"` entries up to an exact
multiple of the group size does not change the produced blocks. -/
lemma goBlocks_pad : ∀ (fuel : Nat) (ms : List (List Char)) (h i : Nat),
    ms.length - i = fuel → 0 < h → (∃ a, i = h * a) → ∀ pad : Nat, pad < h →
    (∃ b, ms.length + pad = h * b) →
    goBlocks ms h i =
      goBlocks (ms ++ List.replicate pad (['2', '3'] : List Char)) h i := by
  intro fuel
  induction fuel using Nat.strong_induction_on with
  | _ fuel ih =>
    intro ms h i hfuel hh ha' pad hpad hb'
    obtain ⟨a, ha⟩ := ha'
    obtain ⟨b, hb⟩ := hb'
    rw [goBlocks]
    conv_rhs => rw [goBlocks]
    have hlen : (ms ++ List.replicate pad (['2', '3'] : List Char)).length =
        ms.length + pad := by
      rw [List.length_append, List.length_replicate]
    by_cases hi : i < ms.length
    · rw [dif_pos ⟨hh, hi⟩, dif_pos ⟨hh, by omega⟩]
      have hpieces : ∀ j ∈ List.range h,
          (if i + j < ms.length then ms.getD (i + j) [] else ['2', '3']) =
          (if i + j < (ms ++ List.replicate pad (['2', '3'] : List Char)).length
           then (ms ++ List.replicate pad (['2', '3'] : List Char)).getD (i + j) []
           else ['2', '3']) := by
        intro j _
        by_cases hj : i + j < ms.length
        · rw [if_pos hj, if_pos (by omega), List.getD_append _ _ _ _ hj]
        · rw [if_neg hj]
          by_cases hj2 : i + j < ms.length + pad
          · rw [if_pos (by omega),
              List.getD_append_right _ _ _ _ (by omega)]
            rw [List.getD_eq_getElem _ _ (by
              rw [List.length_replicate]
              omega)]
            rw [List.getElem_replicate]
          · rw [if_neg (by omega)]
      rw [List.map_congr_left hpieces]
      have hrec := ih (ms.length - (i + h)) (by omega) ms h (i + h) rfl hh
        ⟨a + 1, by rw [ha]; ring⟩ pad hpad ⟨b, hb⟩
      rw [hrec]
    · have hout : ¬ i < ms.length + pad := by
        intro hlt
        have h1 : h * a < h * b := by omega
        have h2 : a < b := lt_of_mul_lt_mul_left h1 (Nat.zero_le h)
        have h3 : h * (a + 1) ≤ h * b := Nat.mul_le_mul_left h (by omega)
        have hdist : h * (a + 1) = h * a + h := by ring
        omega
      rw [dif_neg (by omega), dif_neg (by omega)]

/-- Indexing and two-digit rendering facts for each alphabet character. -/
lemma letterDigit_mem {c : Char} (hc : c ∈ alphabet) :
    0 ≤ letterDigit c ∧ letterDigit c ≤ 25 ∧
    alphabet.getD (letterDigit c).toNat ' ' = c := by
  have halph : alphabet = ['A', 'B', 'C', 'D', 'E', 'F', 'G', 'H', 'I', 'J',
      'K', 'L', 'M', 'N', 'O', 'P', 'Q', 'R', 'S', 'T', 'U', 'V', 'W', 'X',
      'Y', 'Z'] := rfl
  rw [halph] at hc
  fin_cases hc <;> decide

lemma encode_char {c : Char} (hc : c ∈ alphabet) :
    (goPad0 2 (letterDigit c)).length = 2 ∧
    (goPad0 2 (letterDigit c)).all isDigitChar = true ∧
    digitsVal (goPad0 2 (letterDigit c)) = (letterDigit c).toNat ∧
    (letterDigit c).toNat ≤ 25 := by
  obtain ⟨h0, h25, -⟩ := letterDigit_mem hc
  have hcast : letterDigit c = (((letterDigit c).toNat : Nat) : Int) := by omega
  have htoN : (letterDigit c).toNat ≤ 25 := by omega
  refine ⟨?_, ?_, ?_, htoN⟩
  · rw [hcast]
    apply goPad0_length
    apply natStr_length_le (by norm_num)
    calc (letterDigit c).toNat ≤ 25 := htoN
      _ < 10 ^ 2 := by norm_num
  · rw [hcast]
    exact goPad0_all_digits _ _
  · rw [hcast]
    rw [digitsVal_goPad0]
    omega

/-- Decrypting the rendered encryption of a list of well-formed blocks
recovers exactly the letters of the blocks: the codec pipeline downstream
of block formation is inverted by `decodeMessage`. -/
lemma decode_encode_blocks : ∀ (p q e d : Int) (B : List (List Char)),
    Nat.Prime p.toNat → Nat.Prime q.toNat → 0 < p → 0 < q → p ≠ q →
    1 ≤ e → 1 ≤ d → (e * d) % ((p - 1) * (q - 1)) = 1 →
    (∀ bb ∈ B, bb ≠ [] ∧ bb.all isDigitChar = true ∧
      bb.length = blockSize (p * q) ∧ ((digitsVal bb : Nat) : Int) < p * q) →
    decodeMessage (p * q) d
      (((B.map (fun b => goPad0 (countDigits (p * q)) (modpow (atoi b) e (p * q)))).map
          (fun cb => cb ++ [' '])).flatten) =
      lettersOfBlocks B := by
  intro p q e d B hp hq hp0 hq0 hpq he hd hcong hB
  have hn0 : (0 : Int) < p * q := by positivity
  have hw1 : 1 ≤ countDigits (p * q) := by
    rw [countDigits, intStr, if_neg (by omega)]
    exact List.length_pos.mpr (natStr_ne_nil _)
  have hnlt : (p * q).toNat < 10 ^ countDigits (p * q) := by
    rw [countDigits, intStr, if_neg (by omega)]
    exact natStr_lt _
  have henc : ∀ bb ∈ B,
      (goPad0 (countDigits (p * q)) (modpow (atoi bb) e (p * q))).all isDigitChar
        = true ∧
      (goPad0 (countDigits (p * q)) (modpow (atoi bb) e (p * q))).length =
        countDigits (p * q) ∧
      goPad0 (blockSize (p * q))
        (modpow (atoi (goPad0 (countDigits (p * q)) (modpow (atoi bb) e (p * q))))
          d (p * q)) = bb := by
    intro bb hbb
    obtain ⟨hne, hdig, hlen, hval⟩ := hB bb hbb
    have hatoi : atoi bb = ((digitsVal bb : Nat) : Int) := atoi_digits hne hdig
    have hx0 : (0 : Int) ≤ ((digitsVal bb : Nat) : Int) := Int.ofNat_nonneg _
    have hcspec : modpow (atoi bb) e (p * q) =
        ((digitsVal bb : Nat) : Int) ^ e.toNat % (p * q) := by
      rw [hatoi]
      exact modpow_spec hx0 hval he
    have hc0 : (0 : Int) ≤ modpow (atoi bb) e (p * q) := by
      rw [hcspec]
      exact Int.emod_nonneg _ (by omega)
    have hcn : modpow (atoi bb) e (p * q) < p * q := by
      rw [hcspec]
      exact Int.emod_lt_of_pos _ hn0
    have hcEq : modpow (atoi bb) e (p * q) =
        (((modpow (atoi bb) e (p * q)).toNat : Nat) : Int) :=
      (Int.toNat_of_nonneg hc0).symm
    have hcw : (natStr (modpow (atoi bb) e (p * q)).toNat).length ≤
        countDigits (p * q) := by
      apply natStr_length_le hw1
      omega
    refine ⟨?_, ?_, ?_⟩
    · rw [hcEq]
      exact goPad0_all_digits _ _
    · rw [hcEq]
      exact goPad0_length hcw
    · rw [hcEq, atoi_goPad0, ← hcEq]
      have hdec : modpow (modpow (atoi bb) e (p * q)) d (p * q) =
          ((digitsVal bb : Nat) : Int) := by
        rw [hatoi]
        exact rsa_core_int hp hq hp0 hq0 hpq he hd hcong hx0 hval
      rw [hdec, ← hlen]
      exact goPad0_canonical bb hne hdig
  simp only [decodeMessage]
  rw [filter_space_flatten _ (by
    intro b hb
    obtain ⟨bb, hbb, rfl⟩ := List.mem_map.mp hb
    exact (henc bb hbb).1)]
  rw [goChunks_flatten _ _ (by omega) (by
    intro b hb
    obtain ⟨bb, hbb, rfl⟩ := List.mem_map.mp hb
    exact (henc bb hbb).2.1)]
  dsimp only
  rw [List.map_map]
  have hmapid : B.map ((fun b => goPad0 (blockSize (p * q)) (modpow (atoi b) d (p * q))) ∘
      (fun b => goPad0 (countDigits (p * q)) (modpow (atoi b) e (p * q)))) = B := by
    have hstep : B.map ((fun b => goPad0 (blockSize (p * q)) (modpow (atoi b) d (p * q))) ∘
        (fun b => goPad0 (countDigits (p * q)) (modpow (atoi b) e (p * q)))) =
        B.map id := by
      apply List.map_congr_left
      intro bb hbb
      simp only [Function.comp, id]
      exact (henc bb hbb).2.2
    rw [hstep, List.map_id]
  rw [hmapid]

/-- A product of two distinct primes is never divisible by 25, so the
block-value threshold `rep25 m ≤ n` from `blockSize` is strict. -/
lemma rep25_ne_prime_prod {p q : Int} (hp : Nat.Prime p.toNat)
    (hq : Nat.Prime q.toNat) (hp0 : 0 < p) (hq0 : 0 < q) (hpq : p ≠ q)
    (m : Nat) : ((rep25 m : Nat) : Int) ≠ p * q := by
  intro hEq
  have h25 : (25 : Nat) ∣ rep25 m := rep25_dvd_25 m
  obtain ⟨pN, rfl⟩ := Int.eq_ofNat_of_zero_le hp0.le
  obtain ⟨qN, rfl⟩ := Int.eq_ofNat_of_zero_le hq0.le
  have hpP : Nat.Prime pN := by simpa using hp
  have hqP : Nat.Prime qN := by simpa using hq
  have hEqN : rep25 m = pN * qN := by exact_mod_cast hEq
  have h25N : (25 : Nat) ∣ pN * qN := hEqN ▸ h25
  have h5 : (5 : Nat) ∣ pN * qN := dvd_trans (by norm_num) h25N
  have h5p : Nat.Prime 5 := by norm_num
  have hcases := (Nat.Prime.dvd_mul h5p).mp h5
  have hfive : pN = 5 ∧ qN = 5 := by
    rcases hcases with hdp | hdq
    · have hp5 : pN = 5 := by
        rcases (hpP.eq_one_or_self_of_dvd 5 hdp) with h | h
        · omega
        · omega
      refine ⟨hp5, ?_⟩
      obtain ⟨k, hk⟩ := h25N
      rw [hp5] at hk
      have hq5 : (5 : Nat) ∣ qN := ⟨k, by omega⟩
      rcases (hqP.eq_one_or_self_of_dvd 5 hq5) with h | h
      · omega
      · omega
    · have hq5 : qN = 5 := by
        rcases (hqP.eq_one_or_self_of_dvd 5 hdq) with h | h
        · omega
        · omega
      refine ⟨?_, hq5⟩
      obtain ⟨k, hk⟩ := h25N
      rw [hq5] at hk
      have hp5 : (5 : Nat) ∣ pN := ⟨k, by omega⟩
      rcases (hpP.eq_one_or_self_of_dvd 5 hp5) with h | h
      · omega
      · omega
  exact hpq (by rw [hfive.1, hfive.2])

/-- The two-digit rendering of the padding letter X is the string `"23"`. -/
lemma goPad0_X : goPad0 2 (letterDigit 'X') = ['2', '3'] := by
  have hX : letterDigit 'X' = ((23 : Nat) : Int) := by decide
  rw [hX, goPad0_eq]
  have h23 : natStr 23 = ['2', '3'] := by
    rw [show (23 : Nat) = digitsVal ['2', '3'] from by decide]
    exact natStr_digitsVal '2' ['3'] (by decide) (by decide) (by decide)
  rw [h23]
  rfl

/-- Round trip of the full codec on messages whose length is an exact
multiple of the letters-per-block count. -/
lemma codec_exact : ∀ (p q e d : Int) (msg : List Char),
    Nat.Prime p.toNat → Nat.Prime q.toNat → 3 ≤ p → 3 ≤ q → p ≠ q →
    1 ≤ e → 1 ≤ d → (e * d) % ((p - 1) * (q - 1)) = 1 →
    (∀ c ∈ msg, c ∈ alphabet) → 2 ≤ blockSize (p * q) →
    (∃ b, msg.length = (blockSize (p * q) / 2) * b) →
    decodeMessage (p * q) d (encodeMessage (p * q) e msg) = some msg := by
  intro p q e d msg hp hq hp3 hq3 hpq he hd hcong hmsg hbs hmul
  have hn0 : (0 : Int) < p * q := mul_pos (by omega) (by omega)
  obtain ⟨m, hbsm, hr1, hr2⟩ := blockSize_spec (p * q) hn0.le
  have hm1 : 1 ≤ m := by omega
  have hhalf : blockSize (p * q) / 2 = m := by rw [hbsm]; omega
  have hmsprops : ∀ x ∈ msg.map (fun c => goPad0 2 (letterDigit c)),
      x.length = 2 ∧ x.all isDigitChar = true ∧ digitsVal x ≤ 25 := by
    intro x hx
    obtain ⟨c, hc, rfl⟩ := List.mem_map.mp hx
    obtain ⟨h1, h2, h3, h4⟩ := encode_char (hmsg c hc)
    exact ⟨h1, h2, by omega⟩
  obtain ⟨b, hbmul⟩ := hmul
  rw [hhalf] at hbmul
  have hlen : (msg.map (fun c => goPad0 2 (letterDigit c))).length = m * b := by
    rw [List.length_map, hbmul]
  have hexact := goBlocks_exact (msg.map (fun c => goPad0 2 (letterDigit c))).length
    (msg.map (fun c => goPad0 2 (letterDigit c))) m 0 (by omega) (by omega)
    ⟨0, by omega⟩ ⟨b, hlen⟩ hmsprops
  have hne25 := rep25_ne_prime_prod hp hq (by omega) (by omega) hpq m
  have hBprops : ∀ bb ∈ goBlocks (msg.map (fun c => goPad0 2 (letterDigit c))) m 0,
      bb ≠ [] ∧ bb.all isDigitChar = true ∧ bb.length = blockSize (p * q) ∧
      ((digitsVal bb : Nat) : Int) < p * q := by
    intro bb hbb
    obtain ⟨h1, h2, h3⟩ := hexact.1 bb hbb
    refine ⟨List.ne_nil_of_length_pos (by omega), h2, by rw [h1, hbsm], ?_⟩
    have hc3 : ((digitsVal bb : Nat) : Int) ≤ ((rep25 m : Nat) : Int) := by
      exact_mod_cast h3
    have hlt : ((rep25 m : Nat) : Int) < p * q := lt_of_le_of_ne hr1 hne25
    omega
  simp only [encodeMessage]
  rw [hhalf]
  rw [decode_encode_blocks p q e d _ hp hq (by omega) (by omega) hpq he hd hcong
    hBprops]
  rw [hexact.2, List.drop_zero, List.map_map]
  have hmapid : msg.map ((fun x => alphabet.getD (atoi x).toNat ' ') ∘
      (fun c => goPad0 2 (letterDigit c))) = msg.map id := by
    apply List.map_congr_left
    intro c hc
    simp only [Function.comp, id]
    obtain ⟨h0, h25, hgetD⟩ := letterDigit_mem (hmsg c hc)
    have hcast : letterDigit c = (((letterDigit c).toNat : Nat) : Int) := by omega
    rw [hcast, atoi_goPad0]
    have hk : ((((letterDigit c).toNat : Nat) : Int)).toNat =
        (letterDigit c).toNat := by omega
    rw [hk]
    exact hgetD
  rw [hmapid, List.map_id]

/-- Appending the X-padding that `encodeMessage`'s block loop implicitly
adds does not change the encoder's output. -/
lemma encode_pad_eq (n e : Int) (msg : List Char) (hm : 0 < blockSize n / 2) :
    encodeMessage n e msg =
      encodeMessage n e (msg ++ List.replicate
        ((blockSize n / 2 - msg.length % (blockSize n / 2)) % (blockSize n / 2))
        'X') := by
  simp only [encodeMessage]
  set m := blockSize n / 2 with hmdef
  set pad := (m - msg.length % m) % m with hpaddef
  have hpadlt : pad < m := Nat.mod_lt _ hm
  have hdm := Nat.div_add_mod msg.length m
  have hdvd : ∃ b2, msg.length + pad = m * b2 := by
    by_cases hr : msg.length % m = 0
    · have hpad0 : pad = 0 := by
        rw [hpaddef, hr, Nat.sub_zero, Nat.mod_self]
      refine ⟨msg.length / m, ?_⟩
      omega
    · have hrlt : msg.length % m < m := Nat.mod_lt _ hm
      have hpadeq : pad = m - msg.length % m := by
        rw [hpaddef]
        exact Nat.mod_eq_of_lt (by omega)
      refine ⟨msg.length / m + 1, ?_⟩
      have hmul : m * (msg.length / m + 1) = m * (msg.length / m) + m := by ring
      omega
  have hmsg' : (msg ++ List.replicate pad 'X').map
      (fun c => goPad0 2 (letterDigit c)) =
      msg.map (fun c => goPad0 2 (letterDigit c)) ++
        List.replicate pad (['2', '3'] : List Char) := by
    rw [List.map_append, List.map_replicate, goPad0_X]
  rw [hmsg']
  have hblocks := goBlocks_pad (msg.map (fun c => goPad0 2 (letterDigit c))).length
    (msg.map (fun c => goPad0 2 (letterDigit c))) m 0 rfl hm ⟨0, by omega⟩ pad
    hpadlt (by
      rw [List.length_map]
      exact hdvd)
  rw [hblocks]

lemma blockSize_3233 : blockSize 3233 = 4 := by
  rw [blockSize, blockSizeLoop, if_neg (by norm_num [rep25]), blockSizeLoop,
    if_neg (by norm_num [rep25]), blockSizeLoop, if_pos (by norm_num [rep25])]

/-- The amount of X-padding always reaches an exact multiple of the
letters-per-block count. -/
lemma pad_dvd (l m : Nat) (hm : 0 < m) :
    ∃ b2, l + (m - l % m) % m = m * b2 := by
  have hdm := Nat.div_add_mod l m
  by_cases hr : l % m = 0
  · have hpad0 : (m - l % m) % m = 0 := by
      rw [hr, Nat.sub_zero, Nat.mod_self]
    refine ⟨l / m, ?_⟩
    omega
  · have hrlt : l % m < m := Nat.mod_lt _ hm
    have hpadeq : (m - l % m) % m = m - l % m := Nat.mod_eq_of_lt (by omega)
    refine ⟨l / m + 1, ?_⟩
    have hmul : m * (l / m + 1) = m * (l / m) + m := by ring
    omega

/-- C1 as stated is false for message lengths that are not a multiple of
`blockSize(n)/2`: with the valid key pair `(3233, 17, 2753)` from
`p = 61, q = 53`, the one-letter message `"A"` decodes to `"AX"` — the
block loop pads with the letter X and decoding cannot remove the pad. -/
theorem C1_counterexample :
    genereateRSAKeysFrom 61 53 3233 17 2753 ∧ 'A' ∈ alphabet ∧
    decodeMessage 3233 2753 (encodeMessage 3233 17 ['A']) = some ['A', 'X'] ∧
    decodeMessage 3233 2753 (encodeMessage 3233 17 ['A']) ≠ some ['A'] := by
  have h6153 : (61 : Int) * 53 = 3233 := by norm_num
  have hpad := encode_pad_eq 3233 17 ['A'] (by rw [blockSize_3233]; norm_num)
  rw [blockSize_3233] at hpad
  have hlist : (['A'] ++ List.replicate
      ((4 / 2 - (['A'] : List Char).length % (4 / 2)) % (4 / 2)) 'X') =
      (['A', 'X'] : List Char) := by decide
  rw [hlist] at hpad
  have hp61 : Nat.Prime (61 : Int).toNat := by
    have h : ((61 : Int)).toNat = 61 := rfl
    rw [h]
    norm_num
  have hp53 : Nat.Prime (53 : Int).toNat := by
    have h : ((53 : Int)).toNat = 53 := rfl
    rw [h]
    norm_num
  have hexact := codec_exact 61 53 17 2753 ['A', 'X'] hp61 hp53 (by norm_num)
    (by norm_num) (by norm_num) (by norm_num) (by norm_num) (by norm_num)
    (by decide) (by rw [h6153, blockSize_3233]; norm_num)
    ⟨1, by rw [h6153, blockSize_3233]; decide⟩
  rw [h6153] at hexact
  have hdec : decodeMessage 3233 2753 (encodeMessage 3233 17 ['A']) =
      some ['A', 'X'] := by
    rw [hpad]
    exact hexact
  refine ⟨genKeysFrom_61_53, by decide, hdec, ?_⟩
  rw [hdec]
  simp

/-- C1 amended: for every triple `genereateRSAKeys` can return whose two
generated values are distinct genuine primes, and every message over the
alphabet A–Z, `decodeMessage` inverts `encodeMessage` up to the X-padding
the block loop appends: the decoded text is the message followed by
`(h - len mod h) mod h` letters X, where `h = blockSize n / 2` (so exactly
the message when the length is a multiple of `h`).  The hypothesis
`2 ≤ blockSize n` excludes moduli below 25, for which the Go block loop
never terminates. -/
theorem C1_roundtrip : ∀ (p q n e d : Int) (msg : List Char),
    genereateRSAKeysFrom p q n e d → Nat.Prime p.toNat → Nat.Prime q.toNat →
    p ≠ q → 2 ≤ blockSize n → (∀ c ∈ msg, c ∈ alphabet) →
    decodeMessage n d (encodeMessage n e msg) =
      some (msg ++ List.replicate
        ((blockSize n / 2 - msg.length % (blockSize n / 2)) % (blockSize n / 2))
        'X') := by
  intro p q n e d msg hk hp hq hpq hbs hmsg
  obtain ⟨hp3, hq3, hn, hepos, hgcd, hd0, hdlt, hcong⟩ := genKeys_props hk
  have hd1 : 1 ≤ d := by
    rcases eq_or_lt_of_le hd0 with h0 | h0
    · exfalso
      rw [← h0] at hcong
      simp at hcong
    · omega
  subst hn
  have hm0 : 0 < blockSize (p * q) / 2 := by omega
  rw [encode_pad_eq (p * q) e msg hm0]
  apply codec_exact p q e d _ hp hq hp3 hq3 hpq hepos hd1 hcong
  · intro c hc
    rcases List.mem_append.mp hc with hc1 | hc2
    · exact hmsg c hc1
    · rw [List.eq_of_mem_replicate hc2]
      decide
  · exact hbs
  · rw [List.length_append, List.length_replicate]
    exact pad_dvd msg.length (blockSize (p * q) / 2) hm0

/-- Witness for C1's amended round trip: the two-letter message `"AB"`
(an exact multiple of `blockSize 3233 / 2 = 2` letters) encrypted with the
key `(3233, 17)` from the distinct primes 61, 53 decodes back to `"AB"`
with no padding. -/
theorem C1_roundtrip_witness :
    decodeMessage 3233 2753 (encodeMessage 3233 17 ['A', 'B']) =
      some ['A', 'B'] := by
  have h := C1_roundtrip 61 53 3233 17 2753 ['A', 'B'] genKeysFrom_61_53
    (by decide) (by decide) (by norm_num) (by rw [blockSize_3233]; norm_num)
    (by decide)
  rw [blockSize_3233] at h
  simpa using h

lemma findIdx?_none (p : Char → Bool) : ∀ (l : List Char),
    (∀ x ∈ l, ¬ p x = true) → ∀ i, List.findIdx? p l i = none := by
  intro l
  induction l with
  | nil => intro _ i; rfl
  | cons a t ih =>
    intro h i
    rw [List.findIdx?_cons, if_neg (by simpa using h a (List.mem_cons_self a t))]
    exact ih (fun x hx => h x (List.mem_cons_of_mem a hx)) (i + 1)

/-- Characters outside the alphabet are silently mapped to index `-1` by
`strings.Index`. -/
lemma letterDigit_not_mem {c : Char} (hc : c ∉ alphabet) : letterDigit c = -1 := by
  rw [letterDigit]
  rw [findIdx?_none (fun a => a == c) alphabet (by
    intro x hx
    simp only [beq_iff_eq]
    intro hEq
    exact hc (hEq ▸ hx)) 0]

/-- `countDigits` is always at least 1: the decimal rendering is nonempty. -/
lemma countDigits_pos (n : Int) : 1 ≤ countDigits n := by
  rw [countDigits, intStr]
  by_cases hneg : n < 0
  · rw [if_pos hneg]
    simp
  · rw [if_neg hneg]
    exact List.length_pos.mpr (natStr_ne_nil _)

/-- When the character count is not an exact multiple of the chunk width,
the chunking loop of `decodeMessage` hits the short-final-chunk panic. -/
lemma goChunks_not_dvd : ∀ (fuel : Nat) (s : List Char) (w i : Nat),
    s.length - i = fuel → 0 < w → i ≤ s.length → ¬ w ∣ (s.length - i) →
    goChunks s w i = none := by
  intro fuel
  induction fuel using Nat.strong_induction_on with
  | _ fuel ih =>
    intro s w i hfuel hw hile hndvd
    rw [goChunks]
    by_cases hi : i < s.length
    · rw [dif_pos ⟨hw, hi⟩]
      by_cases h2 : i + w ≤ s.length
      · rw [if_pos h2]
        have hrec : goChunks s w (i + w) = none := by
          apply ih (s.length - (i + w)) (by omega) s w (i + w) rfl hw (by omega)
          intro ⟨k, hk⟩
          have hd : w * (k + 1) = w * k + w := by ring
          exact hndvd ⟨k + 1, by omega⟩
        rw [hrec]
        rfl
      · rw [if_neg h2]
    · rw [dif_neg (by omega)]
      rw [if_neg (by omega)]
      exfalso
      exact hndvd ⟨0, by omega⟩

/-- Every block built by the block loop — for any message length, with the
X-padding filling the last block — is a `2h`-digit string whose two-digit
pairs are at most 25, so its value is at most `rep25 h`. -/
lemma goBlocks_props : ∀ (fuel : Nat) (ms : List (List Char)) (h i : Nat),
    ms.length - i = fuel →
    (∀ x ∈ ms, x.length = 2 ∧ x.all isDigitChar = true ∧ digitsVal x ≤ 25) →
    ∀ bb ∈ goBlocks ms h i, bb.length = 2 * h ∧ bb.all isDigitChar = true ∧
      digitsVal bb ≤ rep25 h := by
  intro fuel
  induction fuel using Nat.strong_induction_on with
  | _ fuel ih =>
    intro ms h i hfuel hmem bb hbb
    rw [goBlocks] at hbb
    by_cases hcond : 0 < h ∧ i < ms.length
    · rw [dif_pos hcond] at hbb
      rcases List.mem_cons.mp hbb with rfl | hbb2
      · have hpieces : ∀ x ∈ (List.range h).map
            (fun j => if i + j < ms.length then ms.getD (i + j) [] else
              (['2', '3'] : List Char)),
            x.length = 2 ∧ x.all isDigitChar = true ∧ digitsVal x ≤ 25 := by
          intro x hx
          obtain ⟨j, -, rfl⟩ := List.mem_map.mp hx
          by_cases hj : i + j < ms.length
          · rw [if_pos hj]
            apply hmem
            rw [List.getD_eq_getElem ms [] hj]
            exact List.getElem_mem _
          · rw [if_neg hj]
            refine ⟨rfl, rfl, by decide⟩
        obtain ⟨h1, h2, h3⟩ := flatten_pairs _ hpieces
        rw [List.length_map, List.length_range] at h1 h3
        exact ⟨h1, h2, h3⟩
      · exact ih (ms.length - (i + h)) (by omega) ms h (i + h) rfl hmem bb hbb2
    · rw [dif_neg hcond] at hbb
      exact absurd hbb (List.not_mem_nil bb)

/-- The block loop always terminates with exactly `ceil(len/h)` blocks. -/
lemma goBlocks_count : ∀ (fuel : Nat) (ms : List (List Char)) (h i : Nat),
    ms.length - i = fuel → 0 < h →
    (goBlocks ms h i).length = (ms.length - i + (h - 1)) / h := by
  intro fuel
  induction fuel using Nat.strong_induction_on with
  | _ fuel ih =>
    intro ms h i hfuel hh
    rw [goBlocks]
    by_cases hi : i < ms.length
    · rw [dif_pos ⟨hh, hi⟩, List.length_cons]
      rw [ih (ms.length - (i + h)) (by omega) ms h (i + h) rfl hh]
      by_cases hL : i + h ≤ ms.length
      · have hsplit : ms.length - i + (h - 1) =
            (ms.length - (i + h) + (h - 1)) + h := by omega
        rw [hsplit, Nat.add_div_right _ hh]
      · have hz : ms.length - (i + h) = 0 := by omega
        rw [hz]
        have hlt : h - 1 < h := by omega
        rw [Nat.zero_add, Nat.div_eq_of_lt hlt]
        have hsplit : ms.length - i + (h - 1) = h + (ms.length - i - 1) := by
          omega
        rw [hsplit, Nat.add_comm h _, Nat.add_div_right _ hh,
          Nat.div_eq_of_lt (by omega)]
    · rw [dif_neg (by omega), List.length_nil]
      have hz : ms.length - i = 0 := by omega
      rw [hz, Nat.zero_add, Nat.div_eq_of_lt (by omega)]

lemma blockSize_25 : blockSize 25 = 2 := by
  rw [blockSize, blockSizeLoop, if_neg (by norm_num [rep25]), blockSizeLoop,
    if_pos (by norm_num [rep25])]

lemma blockSize_100 : blockSize 100 = 2 := by
  rw [blockSize, blockSizeLoop, if_neg (by norm_num [rep25]), blockSizeLoop,
    if_pos (by norm_num [rep25])]

lemma natStr_100 : natStr 100 = ['1', '0', '0'] := by
  rw [show (100 : Nat) = digitsVal ['1', '0', '0'] from by decide]
  exact natStr_digitsVal '1' ['0', '0'] (by decide) (by decide) (by decide)

lemma natStr_99 : natStr 99 = ['9', '9'] := by
  rw [show (99 : Nat) = digitsVal ['9', '9'] from by decide]
  exact natStr_digitsVal '9' ['9'] (by decide) (by decide) (by decide)

lemma countDigits_100 : countDigits 100 = 3 := by
  rw [countDigits, intStr, if_neg (by norm_num),
    show ((100 : Int)).toNat = 100 from rfl, natStr_100]
  rfl

/-- The two-digit rendering of the letter Z is the string `"25"`. -/
lemma goPad0_Z : goPad0 2 (letterDigit 'Z') = ['2', '5'] := by
  have hZ : letterDigit 'Z' = ((25 : Nat) : Int) := by decide
  rw [hZ, goPad0_eq]
  have h25 : natStr 25 = ['2', '5'] := by
    rw [show (25 : Nat) = digitsVal ['2', '5'] from by decide]
    exact natStr_digitsVal '2' ['5'] (by decide) (by decide) (by decide)
  rw [h25]
  rfl

/-- The single block the encoder builds from the message `"Z"` at modulus
25 is the digit string `"25"`, whose value equals the modulus. -/
lemma goBlocks_Z :
    goBlocks ((['Z'] : List Char).map (fun c => goPad0 2 (letterDigit c)))
      (blockSize 25 / 2) 0 = [['2', '5']] := by
  have hmap : (['Z'] : List Char).map (fun c => goPad0 2 (letterDigit c)) =
      [['2', '5']] := by
    rw [List.map_cons, List.map_nil, goPad0_Z]
  rw [hmap, blockSize_25]
  rw [goBlocks]
  rw [dif_pos (by constructor <;> norm_num)]
  rw [goBlocks]
  rw [dif_neg (by norm_num)]
  decide

/-- C8's "only if" half is false: the stripped input `"099"` at
`(n, d) = (100, 1)` has length 3, an exact multiple of
`countDigits 100 = 3`, yet decoding aborts — the chunk decrypts to 99
(`modpow` with exponent 1 returns its argument unreduced) and the letter
pair `"99"` indexes the 26-letter alphabet out of range. -/
theorem C8_counterexample :
    countDigits 100 = 3 ∧
    (((['0', '9', '9'] : List Char).filter (fun c => c != ' ')).length = 3) ∧
    decodeMessage 100 1 ['0', '9', '9'] = none := by
  refine ⟨countDigits_100, by decide, ?_⟩
  have hfilter : (['0', '9', '9'] : List Char).filter (fun c => c != ' ') =
      ['0', '9', '9'] := by decide
  have hchunks : goChunks ['0', '9', '9'] 3 0 = some [['0', '9', '9']] := by
    rw [goChunks]
    rw [dif_pos (by constructor <;> norm_num)]
    rw [if_pos (by norm_num)]
    rw [goChunks]
    rw [dif_neg (by norm_num)]
    rw [if_neg (by norm_num)]
    decide
  simp only [decodeMessage]
  rw [hfilter, countDigits_100, hchunks]
  dsimp only
  have hatoi : atoi ['0', '9', '9'] = (99 : Int) := by decide
  have hmapped : ([['0', '9', '9']] : List (List Char)).map
      (fun b => goPad0 (blockSize 100) (modpow (atoi b) 1 100)) = [['9', '9']] := by
    rw [List.map_cons, List.map_nil, hatoi, modpow_one, blockSize_100]
    rw [show (99 : Int) = ((99 : Nat) : Int) from rfl, goPad0_eq, natStr_99]
    rfl
  rw [hmapped]
  have hlb : lettersOfBlock ['9', '9'] 0 = none := by
    rw [lettersOfBlock, if_pos (by norm_num), if_pos (by norm_num),
      if_neg (by decide)]
  rw [lettersOfBlocks, hlb]

/-- C8 amended, the direction that holds: whenever the space-stripped
input length is *not* an exact multiple of `countDigits n`, `decodeMessage`
aborts (the Go code panics on the short final chunk).  The converse is
refuted separately: an exact-multiple length does not guarantee success. -/
theorem C8_bad_length_aborts : ∀ (n d : Int) (msg : List Char),
    ¬ ((countDigits n) ∣ (msg.filter (fun c => c != ' ')).length) →
    decodeMessage n d msg = none := by
  intro n d msg hndvd
  simp only [decodeMessage]
  rw [goChunks_not_dvd (msg.filter (fun c => c != ' ')).length _ _ 0 rfl
    (countDigits_pos n) (Nat.zero_le _) hndvd]

/-- Witness for C8's amended abort property: the two-character input
`"09"` at `n = 100` (three digits) aborts. -/
theorem C8_bad_length_aborts_witness : decodeMessage 100 1 ['0', '9'] = none := by
  apply C8_bad_length_aborts
  rw [countDigits_100]
  decide

/-- C9 as stated is false at the boundary: for `n = 25` (`blockSize = 2`)
the message `"Z"` produces the block `"25"`, whose value 25 equals `n`
rather than being strictly below it. -/
theorem C9_counterexample :
    blockSize 25 = 2 ∧
    goBlocks ((['Z'] : List Char).map (fun c => goPad0 2 (letterDigit c)))
      (blockSize 25 / 2) 0 = [['2', '5']] ∧
    atoi ['2', '5'] = 25 ∧ ¬ ((25 : Int) < 25) :=
  ⟨blockSize_25, goBlocks_Z, by decide, by norm_num⟩

/-- C9 amended: every block the encoder builds from an alphabet message —
including the X-padded final block — is a digit string of exactly
`blockSize n` characters whose value is nonnegative and *at most* `n`.
The strict bound `< n` fails exactly when `n` itself is a repeated-"25"
value, as the separate boundary counterexample at `n = 25` shows. -/
theorem C9_block_bound : ∀ (n : Int) (msg : List Char), 0 ≤ n →
    2 ≤ blockSize n → (∀ c ∈ msg, c ∈ alphabet) →
    ∀ bb ∈ goBlocks (msg.map (fun c => goPad0 2 (letterDigit c)))
        (blockSize n / 2) 0,
      bb.length = blockSize n ∧ 0 ≤ atoi bb ∧ atoi bb ≤ n := by
  intro n msg hn hbs hmsg bb hbb
  obtain ⟨m, hbsm, hr1, hr2⟩ := blockSize_spec n hn
  have hm1 : 1 ≤ m := by omega
  have hhalf : blockSize n / 2 = m := by rw [hbsm]; omega
  rw [hhalf] at hbb
  have hmsprops : ∀ x ∈ msg.map (fun c => goPad0 2 (letterDigit c)),
      x.length = 2 ∧ x.all isDigitChar = true ∧ digitsVal x ≤ 25 := by
    intro x hx
    obtain ⟨c, hc, rfl⟩ := List.mem_map.mp hx
    obtain ⟨h1, h2, h3, h4⟩ := encode_char (hmsg c hc)
    exact ⟨h1, h2, by omega⟩
  obtain ⟨h1, h2, h3⟩ := goBlocks_props
    (msg.map (fun c => goPad0 2 (letterDigit c))).length
    (msg.map (fun c => goPad0 2 (letterDigit c))) m 0 rfl hmsprops bb hbb
  have hne : bb ≠ [] := List.ne_nil_of_length_pos (by omega)
  rw [atoi_digits hne h2]
  refine ⟨by rw [h1, hbsm], Int.ofNat_nonneg _, ?_⟩
  have hc3 : ((digitsVal bb : Nat) : Int) ≤ ((rep25 m : Nat) : Int) := by
    exact_mod_cast h3
  omega

/-- Witness for C9's amended block bound at `n = 25`, message `"Z"`,
block `"25"`. -/
theorem C9_block_bound_witness :
    (['2', '5'] : List Char).length = blockSize 25 ∧ 0 ≤ atoi ['2', '5'] ∧
    atoi ['2', '5'] ≤ 25 := by
  apply C9_block_bound 25 ['Z'] (by norm_num) (by norm_num [blockSize_25])
    (by decide)
  rw [goBlocks_Z]
  decide

/-- C10: `encodeMessage` is total at its interface whenever the block loop
can advance (`blockSize n ≥ 2`, i.e. `n ≥ 25`): characters outside the
alphabet are silently mapped to index `-1` by `strings.Index` and encoded
without any error, and for *every* message the encoder terminates with
exactly `ceil(len/(blockSize n / 2))` space-terminated encrypted blocks.
(For `n < 25`, `blockSize n = 0` and the Go loop `i += bSize/2` never
advances on a nonempty message — the hypothesis excludes that divergence.) -/
theorem C10_encode_total : ∀ (n e : Int) (msg : List Char), 2 ≤ blockSize n →
    (∀ c, c ∉ alphabet → letterDigit c = -1) ∧
    encodeMessage n e msg =
      ((goBlocks (msg.map (fun c => goPad0 2 (letterDigit c)))
          (blockSize n / 2) 0).map
        (fun b => goPad0 (countDigits n) (modpow (atoi b) e n) ++ [' '])).flatten ∧
    (goBlocks (msg.map (fun c => goPad0 2 (letterDigit c)))
        (blockSize n / 2) 0).length =
      (msg.length + (blockSize n / 2 - 1)) / (blockSize n / 2) := by
  intro n e msg hbs
  refine ⟨fun c hc => letterDigit_not_mem hc, ?_, ?_⟩
  · simp only [encodeMessage]
    rw [List.map_map]
    rfl
  · rw [goBlocks_count (msg.map (fun c => goPad0 2 (letterDigit c))).length
      (msg.map (fun c => goPad0 2 (letterDigit c))) (blockSize n / 2) 0 rfl
      (by omega)]
    rw [List.length_map, Nat.sub_zero]

/-- Witness for C10 at `n = 3233`, `e = 17` and the out-of-alphabet
message `"a"`: the lowercase letter maps to `-1` and the encoder still
produces exactly one block. -/
theorem C10_encode_total_witness :
    letterDigit 'a' = -1 ∧
    (goBlocks ((['a'] : List Char).map (fun c => goPad0 2 (letterDigit c)))
        (blockSize 3233 / 2) 0).length =
      ((['a'] : List Char).length + (blockSize 3233 / 2 - 1)) /
        (blockSize 3233 / 2) := by
  have h := C10_encode_total 3233 17 ['a'] (by norm_num [blockSize_3233])
  exact ⟨h.1 'a' (by decide), h.2.2⟩
